import Mathlib

/-!
Verification of the data-transcoding core of `media2array.py`, a converter
that turns images and WAV audio into PROGMEM-style C arrays.

The definitions below are a shallow embedding of the Python source:

* `HexTable` and `HexTable.write` embed the streaming hex formatter
  (class `HexTable`, lines 14-37).
* `packBits` / `packRow` / `convertImageBitmap` embed the 1-bit bitmap
  packing loop of `convertImage` (lines 66-78).
* `convertImageRGB` embeds the 5/6/5 color quantization loop of
  `convertImage` (lines 100-105).
* `uvalue`, the header-field readers, `mixChannels`, `sampleLoop` and
  `convertWav` embed the WAV conversion (lines 121-204).  Python's
  implicit runtime failures (IndexError on `bytes[i]`, ZeroDivisionError
  on `//`) are made explicit via `PyErr`; the assert on the RIFF/WAVE
  magic is `PyErr.assertionError`.
* `gammaEntry` embeds the gamma-table entry computation of the
  `gammaFlag` output block (lines 226-234), with Python floats modelled
  by real numbers.

Python integers are unbounded, so machine words are `Nat` throughout;
`bytes` values are `Nat`s that the Python runtime guarantees to be
below 256, which appears as an explicit hypothesis where it matters.
-/

set_option autoImplicit false

namespace Media2Array

/-! ### Hex rendering

`"{0:#0{1}x}".format(n, digits + 2)` renders `n` in lowercase hex with a
`0x` prefix, left-padded with zeros to `digits` hex digits (more digits
are used, without truncation, if `n` does not fit). -/

/-- One lowercase hex digit character, for `d < 16`. -/
def hexDigitCh (d : ℕ) : Char :=
  if d < 10 then Char.ofNat (48 + d) else Char.ofNat (87 + d)

/-- Lowercase hex digits, most significant first, with explicit fuel
(any fuel at least `n` gives the true digit string; the fuel-0 fallback
is only reached at `n = 0`). -/
def toHexFuel : ℕ → ℕ → List Char
  | 0, n => [hexDigitCh (n % 16)]
  | fuel + 1, n =>
    if n < 16 then [hexDigitCh n]
    else toHexFuel fuel (n / 16) ++ [hexDigitCh (n % 16)]

/-- Lowercase hex digits of `n`, most significant first. -/
def toHex (n : ℕ) : List Char := toHexFuel n n

/-- `0x`-prefixed, zero-padded hex rendering used by `HexTable.write`
(line 35 of the source). -/
def hexStr (digits n : ℕ) : String :=
  "0x" ++ String.mk (List.replicate (digits - (toHex n).length) (Char.ofNat 48) ++ toHex n)

/-! ### The streaming formatter (`class HexTable`, lines 14-37) -/

/-- State of the streaming array formatter (`HexTable.__init__`). -/
structure HexTable where
  hexLimit   : ℕ
  hexCounter : ℕ
  hexDigits  : ℕ
  hexColumns : ℕ
  hexColumn  : ℕ
deriving DecidableEq

/-- `HexTable(count, columns, digits)`: `hexColumn` starts at `columns`
to force a first-line indent. -/
def HexTable.init (count columns digits : ℕ) : HexTable :=
  ⟨count, 0, digits, columns, columns⟩

/-- One `HexTable.write(n)` call: returns the next state and the string
written to the output stream.  Python's `hexColumn < hexColumns - 1` over
unbounded signed integers is exactly `hexColumn + 1 < hexColumns` over ℕ. -/
def HexTable.write (h : HexTable) (n : ℕ) : HexTable × String :=
  let s1 : String :=
    if 0 < h.hexCounter then
      "," ++ (if h.hexColumn + 1 < h.hexColumns then " " else "")
    else ""
  let c1 := h.hexColumn + 1
  let cs : ℕ × String := if c1 ≥ h.hexColumns then (0, "\n  ") else (c1, "")
  let k1 := h.hexCounter + 1
  let s4 : String := if k1 ≥ h.hexLimit then " \x7d;\n\n" else ""
  ({ h with hexCounter := k1, hexColumn := cs.1 },
   s1 ++ cs.2 ++ hexStr h.hexDigits n ++ s4)

/-- Writing a list of values in order, concatenating all output. -/
def HexTable.run (h : HexTable) : List ℕ → HexTable × String
  | [] => (h, "")
  | n :: ns =>
    let w := h.write n
    let rest := w.1.run ns
    (rest.1, w.2 ++ rest.2)

/-! ### Bitmap packing (`convertImage`, mode `'1'`, lines 66-78) -/

/-- The per-row packing loop: MSB-first accumulation of pixel bits into
bytes, flushing every 8 bits and flushing a nonempty partial accumulator
at row end.  `bits`/`sum` are the loop state of lines 67-78. -/
def packBits : List ℕ → ℕ → ℕ → List ℕ
  | [], bits, sum => if bits > 0 then [sum] else []
  | p :: ps, bits, sum =>
    let sum2 := sum * 2 + p
    let bits2 := bits + 1
    if bits2 ≥ 8 then sum2 :: packBits ps 0 0 else packBits ps bits2 sum2

/-- One scanline: pixel `x` contributes bit `1` iff `pixels[x, y] > 0`
(line 70). -/
def packRow (w : ℕ) (row : ℕ → ℕ) : List ℕ :=
  packBits ((List.range w).map (fun x => if row x > 0 then 1 else 0)) 0 0

/-- The value of the bit accumulator after starting from `sum` and
shifting in the bits `c` (the `sum = (sum << 1) + p` steps of line 71). -/
def accByte (sum : ℕ) (c : List ℕ) : ℕ :=
  c.foldl (fun a b => a * 2 + b) sum

/-- The whole bitmap branch of `convertImage`: rows top to bottom, each
freshly packed (the accumulator resets at every row start). -/
def convertImageBitmap (w h : ℕ) (pixels : ℕ → ℕ → ℕ) : List ℕ :=
  ((List.range h).map (fun y => packRow w (fun x => pixels x y))).flatten

/-! ### Color quantization (`convertImage`, RGB branch, lines 100-105) -/

/-- The color branch of `convertImage`: column-major traversal, each
pixel packed as RRRRRGGGGGGBBBBB. -/
def convertImageRGB (w h : ℕ) (pixels : ℕ → ℕ → ℕ × ℕ × ℕ) : List ℕ :=
  ((List.range w).map (fun x =>
    (List.range h).map (fun y =>
      (((pixels x y).1 &&& 0xF8) <<< 8) |||
      (((pixels x y).2.1 &&& 0xFC) <<< 3) |||
      ((pixels x y).2.2 >>> 3)))).flatten

/-! ### WAV audio conversion (`convertWav`, lines 121-204)

The input is the raw file contents, a list of byte values.  Python
slicing `bytes[a:b]` truncates silently, so header parsing never fails;
direct indexing `bytes[i]` raises IndexError and `//` by zero raises
ZeroDivisionError, both of which propagate uncaught (only
AssertionError is caught, line 201). -/

/-- Errors a `convertWav` run can raise. -/
inductive PyErr where
  | assertionError
  | zeroDivisionError
  | indexError
deriving DecidableEq

/-- Observable output of a `convertWav` run: the `#define` header block
plus array opener (lines 148-153), and each value passed to
`HexTable.write`. -/
inductive Out where
  | header (rate samples bits : ℕ)
  | val (n : ℕ)
deriving DecidableEq

/-- `uvalue(bytes)` (lines 121-125): little-endian unsigned decode. -/
def uvalue : List ℕ → ℕ
  | [] => 0
  | b :: bs => b + uvalue bs * 256

/-- Python slice `bs[a:b]` for `a ≤ b`. -/
def slice (bs : List ℕ) (a b : ℕ) : List ℕ :=
  (bs.drop a).take (b - a)

/-- `bytes[0:4]` must equal `b'RIFF'` (line 131). -/
def riffTag : List ℕ := [82, 73, 70, 70]

/-- `bytes[8:16]` must equal `b'WAVEfmt '` (line 131). -/
def waveTag : List ℕ := [87, 65, 86, 69, 102, 109, 116, 32]

/-- The RIFF/WAVE magic check of line 131. -/
def wavMagic (bs : List ℕ) : Prop :=
  slice bs 0 4 = riffTag ∧ slice bs 8 16 = waveTag

instance (bs : List ℕ) : Decidable (wavMagic bs) := by
  unfold wavMagic; infer_instance

/-- `chunksize = uvalue(bytes[16:20])` (line 134). -/
def chunksize (bs : List ℕ) : ℕ := uvalue (slice bs 16 20)

/-- `channels = uvalue(bytes[22:24])` (line 135). -/
def channels (bs : List ℕ) : ℕ := uvalue (slice bs 22 24)

/-- `rate = uvalue(bytes[24:28])` (line 136). -/
def rate (bs : List ℕ) : ℕ := uvalue (slice bs 24 28)

/-- `bytesPer = uvalue(bytes[32:34])` (line 137). -/
def bytesPer (bs : List ℕ) : ℕ := uvalue (slice bs 32 34)

/-- `bitsPer = uvalue(bytes[34:36])` (line 138). -/
def bitsPer (bs : List ℕ) : ℕ := uvalue (slice bs 34 36)

/-- `bytesTotal = uvalue(bytes[chunksize+24:chunksize+28])` (line 139). -/
def bytesTotal (bs : List ℕ) : ℕ :=
  uvalue (slice bs (chunksize bs + 24) (chunksize bs + 28))

/-- `samples = bytesTotal // bytesPer` (line 140); the division-by-zero
case is guarded where `samples` is used. -/
def samples (bs : List ℕ) : ℕ := bytesTotal bs / bytesPer bs

/-- The inner `for c in range(channels)` loop (lines 170-183): mix one
sample frame by summation, advancing the read index.  `none` models an
IndexError on `bytes[index_in]`.  A `bitsPer` other than 8 and 16 reads
nothing and leaves `sum` untouched. -/
def mixChannels (bs : List ℕ) (bp : ℕ) : ℕ → ℕ → ℕ → Option (ℕ × ℕ)
  | 0, idx, sum => some (sum, idx)
  | c + 1, idx, sum =>
    if bp = 8 then
      match bs.get? idx with
      | some b => mixChannels bs bp c (idx + 1) (sum + b)
      | none => none
    else if bp = 16 then
      match bs.get? idx, bs.get? (idx + 1) with
      | some lo, some hi =>
        let x := lo + (hi <<< 8)
        let x2 := if x &&& 0x8000 ≠ 0 then x - 32768 else x + 32768
        mixChannels bs bp c (idx + 2) (sum + x2)
      | _, _ => none
    else mixChannels bs bp c idx sum

/-- One 16-bit sample read at `idx`, sign-converted the way lines
178-181 do (out-of-range reads as 0; they are ruled out where this is
used). -/
def conv16 (bs : List ℕ) (i : ℕ) : ℕ :=
  let x := bs.getD i 0 + (bs.getD (i + 1) 0) <<< 8
  if x &&& 0x8000 ≠ 0 then x - 32768 else x + 32768

/-- Closed form of one mixed frame starting at `idx`. -/
def frameSum (bs : List ℕ) (bp ch idx : ℕ) : ℕ :=
  if bp = 8 then
    ((List.range ch).map (fun c => bs.getD (idx + c) 0)).sum
  else if bp = 16 then
    ((List.range ch).map (fun c => conv16 bs (idx + 2 * c))).sum
  else 0

/-- The claim's wording of the 16-bit offset conversion (refinement
comparison definition, following the spec/claim text, to be compared
with `conv16` from the code): a raw value with its top bit set maps to
`v - 32768`, any other to `v + 32768`. -/
def offsetConv (v : ℕ) : ℕ :=
  if 32768 ≤ v then v - 32768 else v + 32768

/-- A raw little-endian 16-bit value read at byte offset `i`. -/
def le16 (bs : List ℕ) (i : ℕ) : ℕ :=
  bs.getD i 0 + 256 * bs.getD (i + 1) 0

/-- Bytes consumed per sample frame. -/
def stride (bp ch : ℕ) : ℕ :=
  if bp = 8 then ch else if bp = 16 then 2 * ch else 0

/-- The accumulated top-bits byte `buf[0]` after packing the 10-bit
samples `pre` (line 187 iterated). -/
def buf0 (pre : List ℕ) : ℕ :=
  pre.foldl (fun b s => (b <<< 2) ||| (s >>> 8)) 0

/-- The 5-byte buffer state after packing the 10-bit samples `pre`
(`pre.length ≤ 4`): top-bits byte, then low bytes, unused slots zero. -/
def bufOf (pre : List ℕ) : List ℕ :=
  buf0 pre :: (List.range 4).map (fun j => if j < pre.length then pre.getD j 0 &&& 255 else 0)

/-- Clean grouped form of the 10-bit packer output: every 4 consecutive
samples yield 5 bytes, a trailing partial group is flushed as the raw
buffer. -/
def pack10c : List ℕ → List ℕ
  | s0 :: s1 :: s2 :: s3 :: rest =>
    buf0 [s0, s1, s2, s3] :: (s0 &&& 255) :: (s1 &&& 255) :: (s2 &&& 255) :: (s3 &&& 255) ::
      pack10c rest
  | [] => []
  | pre => bufOf pre

/-- The outer `for i in range(samples)` loop (lines 168-198) together
with the final partial flush (lines 197-198).  State: remaining sample
count, read index, the 5-byte buffer and `bufIdx`.  Returns all values
passed to `hex.write` in order, and the error that aborted the loop, if
any. -/
def sampleLoop (bs : List ℕ) (bp ch dv r : ℕ) : ℕ → ℕ → List ℕ → ℕ → List ℕ × Option PyErr
  | 0, _, buf, bufIdx =>
    (if bp = 16 ∧ r = 10 ∧ bufIdx > 1 then buf else [], none)
  | n + 1, idx, buf, bufIdx =>
    match mixChannels bs bp ch idx 0 with
    | none => ([], some .indexError)
    | some (sum, idx2) =>
      if bp = 16 ∧ r = 10 then
        if dv = 0 then ([], some .zeroDivisionError)
        else
          let s := sum / dv
          let b0 := (buf.getD 0 0 <<< 2) ||| (s >>> 8)
          let buf2 := (buf.set 0 b0).set bufIdx (s &&& 255)
          if bufIdx + 1 ≥ 5 then
            let res := sampleLoop bs bp ch dv r n idx2 [0, 0, 0, 0, 0] 1
            (buf2 ++ res.1, res.2)
          else
            sampleLoop bs bp ch dv r n idx2 buf2 (bufIdx + 1)
      else
        if dv = 0 then ([], some .zeroDivisionError)
        else
          let res := sampleLoop bs bp ch dv r n idx2 buf bufIdx
          (sum / dv :: res.1, res.2)

/-- The divisor chosen at lines 156-166. -/
def divisor (r : ℕ) (bs : List ℕ) : ℕ :=
  if bitsPer bs = 16 then
    if r = 10 then channels bs * 64 else channels bs * 256
  else channels bs

/-- The `Bits` header constant (lines 145-146). -/
def bitsDecl (r : ℕ) (bs : List ℕ) : ℕ :=
  if bitsPer bs = 16 ∧ r = 10 then 10 else 8

/-- The element count passed to the `HexTable` constructor
(lines 156-166). -/
def declaredCount (r : ℕ) (bs : List ℕ) : ℕ :=
  if bitsPer bs = 16 ∧ r = 10 then 5 * ((samples bs + 3) / 4) else samples bs

/-- `convertWav` (lines 127-204), parametrized by the global `reduce16`
mode switch `r`.  Returns the emitted output trace and the error that
ended the run, if any.  The magic assert precedes all output; the
`samples` division precedes the header write; `HexTable` writes are
interleaved with the loop. -/
def convertWav (r : ℕ) (bs : List ℕ) : List Out × Option PyErr :=
  if wavMagic bs then
    if bytesPer bs = 0 then ([], some .zeroDivisionError)
    else
      let res := sampleLoop bs (bitsPer bs) (channels bs) (divisor r bs) r
        (samples bs) (chunksize bs + 28) [0, 0, 0, 0, 0] 1
      (Out.header (rate bs) (samples bs) (bitsDecl r bs) :: res.1.map Out.val, res.2)
  else ([], some .assertionError)

/-- The values a `convertWav` run passes to the formatter, in order. -/
def wavVals (r : ℕ) (bs : List ℕ) : List ℕ :=
  (convertWav r bs).1.filterMap (fun o =>
    match o with
    | .val n => some n
    | .header _ _ _ => none)

/-- Mixed sample `i` after division, as the code computes it on the
success path. -/
def sampleVal (r : ℕ) (bs : List ℕ) (i : ℕ) : ℕ :=
  frameSum bs (bitsPer bs) (channels bs)
    (chunksize bs + 28 + stride (bitsPer bs) (channels bs) * i) / divisor r bs

/-- The full value stream of a successful run. -/
def outVals (r : ℕ) (bs : List ℕ) : List ℕ :=
  if bitsPer bs = 16 ∧ r = 10 then
    pack10c ((List.range (samples bs)).map (sampleVal r bs))
  else
    (List.range (samples bs)).map (sampleVal r bs)

/-! ### Gamma tables (lines 226-234)

`int(math.pow(float(i)/D, 2.7)*255.0+0.5)` with `D` the last index
(31.0 or 63.0).  Python float arithmetic is modelled by real numbers;
`int(..)` of a nonnegative value is the floor. -/

/-- Entry `i` of the gamma table with last index `d` (`d = 31` for
`gamma5`, `d = 63` for `gamma6`); the exponentiation is real `rpow`. -/
noncomputable def gammaEntry (d i : ℕ) : ℤ :=
  ⌊((i : ℝ) / (d : ℝ)) ^ (2.7 : ℝ) * 255 + 0.5⌋

/-! ### Concrete inputs used in witnesses and counterexamples -/

/-- A checkerboard-ish monochrome pixel grid (PIL mode `'1'` pixels are
0 or 255). -/
def pxBm : ℕ → ℕ → ℕ := fun x y => (x + y + 1) % 2 * 255

/-- A small RGB pixel grid. -/
def pxRGB : ℕ → ℕ → ℕ × ℕ × ℕ := fun x y => (x * 255, y * 255, 128)

/-- A stereo 16-bit WAV, rate 8000, two frames, both channels constant 0
(signed).  `chunksize = 16`, `bytesPer = 4`, data sub-chunk of 8 zero
bytes at offset 44. -/
def wavStereoZero : List ℕ :=
  [82, 73, 70, 70, 0, 0, 0, 0, 87, 65, 86, 69, 102, 109, 116, 32,
   16, 0, 0, 0, 1, 0, 2, 0, 64, 31, 0, 0, 0, 125, 0, 0, 4, 0, 16, 0,
   100, 97, 116, 97, 8, 0, 0, 0, 0, 0, 0, 0, 0, 0, 0, 0]

/-- A mono 16-bit WAV with six zero samples (12 data bytes at offset
44); in 10-bit mode each sample becomes 512. -/
def wavMono16 : List ℕ :=
  [82, 73, 70, 70, 0, 0, 0, 0, 87, 65, 86, 69, 102, 109, 116, 32,
   16, 0, 0, 0, 1, 0, 1, 0, 64, 31, 0, 0, 0, 125, 0, 0, 2, 0, 16, 0,
   100, 97, 116, 97, 12, 0, 0, 0, 0, 0, 0, 0, 0, 0, 0, 0, 0, 0, 0, 0]

/-- A mono 8-bit WAV with the three samples 0, 128, 255. -/
def wavMono8 : List ℕ :=
  [82, 73, 70, 70, 0, 0, 0, 0, 87, 65, 86, 69, 102, 109, 116, 32,
   16, 0, 0, 0, 1, 0, 1, 0, 64, 31, 0, 0, 64, 31, 0, 0, 1, 0, 8, 0,
   100, 97, 116, 97, 3, 0, 0, 0, 0, 128, 255]

/-- Valid magic but the `bytesPer` header field (bytes 32-34) is zero,
with `bitsPer = 16`: `samples = bytesTotal // bytesPer` raises. -/
def wavZeroBytesPer : List ℕ :=
  [82, 73, 70, 70, 0, 0, 0, 0, 87, 65, 86, 69, 102, 109, 116, 32,
   16, 0, 0, 0, 1, 0, 1, 0, 64, 31, 0, 0, 0, 125, 0, 0, 0, 0, 16, 0]

/-- Valid magic, 8-bit mono, data sub-chunk declares 4 bytes but only 2
are present: the loop reads past the end after writing two values. -/
def wavTruncated : List ℕ :=
  [82, 73, 70, 70, 0, 0, 0, 0, 87, 65, 86, 69, 102, 109, 116, 32,
   16, 0, 0, 0, 1, 0, 1, 0, 64, 31, 0, 0, 0, 125, 0, 0, 1, 0, 8, 0,
   100, 97, 116, 97, 4, 0, 0, 0, 7, 9]

/-- Valid magic, `bitsPer = 3` (neither 8 nor 16) and `bytesPer = 0`. -/
def wavOddBitsZeroBytesPer : List ℕ :=
  [82, 73, 70, 70, 0, 0, 0, 0, 87, 65, 86, 69, 102, 109, 116, 32,
   16, 0, 0, 0, 1, 0, 1, 0, 64, 31, 0, 0, 0, 125, 0, 0, 0, 0, 3, 0]

/-- Valid magic, `bitsPer = 3` (neither 8 nor 16), `bytesPer = 1`,
3 declared samples, no data bytes at all. -/
def wavOddBits : List ℕ :=
  [82, 73, 70, 70, 0, 0, 0, 0, 87, 65, 86, 69, 102, 109, 116, 32,
   16, 0, 0, 0, 1, 0, 1, 0, 64, 31, 0, 0, 0, 125, 0, 0, 1, 0, 3, 0,
   100, 97, 116, 97, 3, 0, 0, 0]

/-! ## General helpers -/

theorem toHexFuel_irrel (n : ℕ) : ∀ f1 f2, n ≤ f1 → n ≤ f2 →
    toHexFuel f1 n = toHexFuel f2 n := by
  induction n using Nat.strong_induction_on with
  | _ n ih =>
    intro f1 f2 h1 h2
    by_cases h16 : n < 16
    · cases f1 with
      | zero =>
        cases f2 with
        | zero => rfl
        | succ f2 =>
          have hn : n = 0 := by omega
          subst hn
          simp [toHexFuel]
      | succ f1 =>
        cases f2 with
        | zero =>
          have hn : n = 0 := by omega
          subst hn
          simp [toHexFuel]
        | succ f2 => simp [toHexFuel, h16]
    · cases f1 with
      | zero => omega
      | succ f1 =>
        cases f2 with
        | zero => omega
        | succ f2 =>
          simp only [toHexFuel, if_neg h16]
          congr 1
          exact ih (n / 16) (Nat.div_lt_self (by omega) (by omega)) f1 f2 (by omega) (by omega)

theorem toHex_step (n : ℕ) :
    toHex n = if n < 16 then [hexDigitCh n]
      else toHex (n / 16) ++ [hexDigitCh (n % 16)] := by
  unfold toHex
  by_cases h16 : n < 16
  · rw [if_pos h16]
    cases n with
    | zero => simp [toHexFuel]
    | succ k => simp [toHexFuel, h16]
  · rw [if_neg h16]
    cases n with
    | zero => omega
    | succ k =>
      simp only [toHexFuel, if_neg h16]
      congr 1
      exact toHexFuel_irrel ((k + 1) / 16) k ((k + 1) / 16) (by omega) le_rfl

theorem mod_succ_char (k cols : ℕ) (hc : 0 < cols) :
    (k + 1) % cols = if k % cols + 1 = cols then 0 else k % cols + 1 := by
  have h1 : (k % cols + 1) % cols = (k + 1) % cols := Nat.mod_add_mod k cols 1
  have h2 : k % cols < cols := Nat.mod_lt k hc
  split_ifs with h
  · rw [← h1, h, Nat.mod_self]
  · rw [← h1, Nat.mod_eq_of_lt (by omega)]

theorem flatten_blocks_getD (f : ℕ → List ℕ) (n : ℕ) :
    ∀ (m i j d : ℕ), (∀ k, k < m → (f k).length = n) → i < m → j < n →
      (((List.range m).map f).flatten.getD (i * n + j) d = (f i).getD j d) := by
  intro m
  induction m generalizing f with
  | zero => intro i j d _ hi; omega
  | succ m ih =>
    intro i j d hf hi hj
    rw [List.range_succ_eq_map, List.map_cons, List.flatten_cons]
    cases i with
    | zero =>
      simp only [Nat.zero_mul, Nat.zero_add]
      rw [List.getD_append _ _ _ _ (by rw [hf 0 (by omega)]; exact hj)]
    | succ i =>
      have hlen : (f 0).length = n := hf 0 (by omega)
      have hge : (f 0).length ≤ (i + 1) * n + j := by
        rw [hlen]
        calc n = 1 * n := (Nat.one_mul n).symm
        _ ≤ (i + 1) * n + j := by
          have := Nat.mul_le_mul_right n (show 1 ≤ i + 1 by omega); omega
      rw [List.getD_append_right _ _ _ _ hge, List.map_map, hlen]
      have harith : (i + 1) * n + j - n = i * n + j := by
        have : (i + 1) * n = i * n + n := by ring
        omega
      rw [harith]
      exact ih (f ∘ Nat.succ) i j d (fun k hk => hf (k + 1) (by omega)) (by omega) hj

theorem flatten_blocks_length (f : ℕ → List ℕ) (n : ℕ) :
    ∀ (m : ℕ), (∀ k, k < m → (f k).length = n) →
      ((List.range m).map f).flatten.length = m * n := by
  intro m
  induction m generalizing f with
  | zero => intro _; simp
  | succ m ih =>
    intro hf
    rw [List.range_succ_eq_map, List.map_cons, List.flatten_cons, List.length_append,
      hf 0 (by omega), List.map_map,
      ih (f ∘ Nat.succ) (fun k hk => hf (k + 1) (by omega))]
    ring

theorem map_range_shift {α : Type} (G : ℕ → α) (k idx n : ℕ) :
    (List.range (n + 1)).map (fun i => G (idx + k * i)) =
      G idx :: (List.range n).map (fun i => G (idx + k + k * i)) := by
  rw [List.range_succ_eq_map, List.map_cons]
  simp only [Nat.mul_zero, Nat.add_zero, List.map_map]
  congr 1
  apply List.map_congr_left
  intro i _
  simp only [Function.comp_apply, Nat.succ_eq_add_one]
  congr 1
  ring

/-! ## HexTable lemmas -/

theorem hexWrite_state (h : HexTable) (n : ℕ) :
    (h.write n).1 =
      { h with hexCounter := h.hexCounter + 1,
               hexColumn := if h.hexColumn + 1 ≥ h.hexColumns then 0 else h.hexColumn + 1 } := by
  unfold HexTable.write
  by_cases hw : h.hexColumn + 1 ≥ h.hexColumns
  · simp [hw]
  · simp [hw]

theorem hexWrite_emit (h : HexTable) (n : ℕ) :
    (h.write n).2 =
      (if 0 < h.hexCounter then
        "," ++ (if h.hexColumn + 1 < h.hexColumns then " " else "") else "") ++
      (if h.hexColumn + 1 ≥ h.hexColumns then "\n  " else "") ++
      hexStr h.hexDigits n ++
      (if h.hexCounter + 1 ≥ h.hexLimit then " \x7d;\n\n" else "") := by
  unfold HexTable.write
  by_cases hw : h.hexColumn + 1 ≥ h.hexColumns
  · have hnl : ¬ (h.hexColumn + 1 < h.hexColumns) := by omega
    simp [hw, hnl]
  · have hlt : h.hexColumn + 1 < h.hexColumns := by omega
    simp [hw, hlt]

theorem hexRun_append (h : HexTable) (l1 l2 : List ℕ) :
    h.run (l1 ++ l2) =
      (((h.run l1).1.run l2).1, (h.run l1).2 ++ ((h.run l1).1.run l2).2) := by
  induction l1 generalizing h with
  | nil => simp [HexTable.run]
  | cons a t ih =>
    rw [List.cons_append]
    show ((((h.write a).1.run (t ++ l2)).1), (h.write a).2 ++ ((h.write a).1.run (t ++ l2)).2) = _
    rw [ih]
    show (_, (h.write a).2 ++ (((h.write a).1.run t).2 ++ _)) = _
    rw [← String.append_assoc]
    rfl

theorem hexRun_hexLimit (h : HexTable) (vs : List ℕ) :
    ((h.run vs).1).hexLimit = h.hexLimit := by
  induction vs generalizing h with
  | nil => rfl
  | cons a t ih => rw [show (h.run (a :: t)).1 = ((h.write a).1.run t).1 from rfl, ih,
      hexWrite_state]

theorem hexRun_hexDigits (h : HexTable) (vs : List ℕ) :
    ((h.run vs).1).hexDigits = h.hexDigits := by
  induction vs generalizing h with
  | nil => rfl
  | cons a t ih => rw [show (h.run (a :: t)).1 = ((h.write a).1.run t).1 from rfl, ih,
      hexWrite_state]

theorem hexRun_hexColumns (h : HexTable) (vs : List ℕ) :
    ((h.run vs).1).hexColumns = h.hexColumns := by
  induction vs generalizing h with
  | nil => rfl
  | cons a t ih => rw [show (h.run (a :: t)).1 = ((h.write a).1.run t).1 from rfl, ih,
      hexWrite_state]

theorem hexRun_hexCounter (h : HexTable) (vs : List ℕ) :
    ((h.run vs).1).hexCounter = h.hexCounter + vs.length := by
  induction vs generalizing h with
  | nil => rfl
  | cons a t ih =>
    rw [show (h.run (a :: t)).1 = ((h.write a).1.run t).1 from rfl, ih, hexWrite_state]
    simp only [List.length_cons]
    omega

theorem hexRun_hexColumn_lt (h : HexTable) (vs : List ℕ) (hc : 0 < h.hexColumns)
    (hcol : h.hexColumn < h.hexColumns) :
    ((h.run vs).1).hexColumn = (h.hexColumn + vs.length) % h.hexColumns := by
  induction vs generalizing h with
  | nil => simp [HexTable.run, Nat.mod_eq_of_lt hcol]
  | cons a t ih =>
    rw [show (h.run (a :: t)).1 = ((h.write a).1.run t).1 from rfl]
    have hcols : ((h.write a).1).hexColumns = h.hexColumns := by rw [hexWrite_state]
    have hcol2 : ((h.write a).1).hexColumn = (h.hexColumn + 1) % h.hexColumns := by
      rw [hexWrite_state]
      by_cases hw : h.hexColumn + 1 ≥ h.hexColumns
      · have : h.hexColumn + 1 = h.hexColumns := by omega
        simp [hw, this, Nat.mod_self]
      · simp [hw, Nat.mod_eq_of_lt (by omega : h.hexColumn + 1 < h.hexColumns)]
    rw [ih ((h.write a).1) (by rw [hcols]; exact hc)
      (by rw [hcol2, hcols]; exact Nat.mod_lt _ hc), hcols, hcol2,
      Nat.mod_add_mod]
    simp only [List.length_cons]
    ring_nf

theorem hexRun_init_column (count cols digits : ℕ) (vs : List ℕ) (hc : 0 < cols)
    (hne : vs ≠ []) :
    (((HexTable.init count cols digits).run vs).1).hexColumn = (vs.length - 1) % cols := by
  cases vs with
  | nil => exact absurd rfl hne
  | cons a t =>
    rw [show ((HexTable.init count cols digits).run (a :: t)).1 =
      (((HexTable.init count cols digits).write a).1.run t).1 from rfl]
    have hst : ((HexTable.init count cols digits).write a).1 =
        ⟨count, 1, digits, cols, 0⟩ := by
      rw [hexWrite_state]
      simp [HexTable.init, show cols + 1 ≥ cols by omega]
    rw [hst, hexRun_hexColumn_lt ⟨count, 1, digits, cols, 0⟩ t hc hc]
    simp

theorem hexWrite_nth (count cols digits n : ℕ) (vs : List ℕ) (hc : 0 < cols) :
    (((HexTable.init count cols digits).run vs).1.write n).2 =
      (if vs.length = 0 then "" else ",") ++
      (if vs.length = 0 ∨ vs.length % cols = 0 then "" else " ") ++
      (if vs.length % cols = 0 then "\n  " else "") ++
      hexStr digits n ++
      (if vs.length + 1 ≥ count then " \x7d;\n\n" else "") := by
  rw [hexWrite_emit, hexRun_hexCounter, hexRun_hexLimit, hexRun_hexDigits, hexRun_hexColumns]
  cases vs with
  | nil =>
    have h2 : (HexTable.init count cols digits).hexColumn + 1 ≥ cols := by
      simp [HexTable.init]
    simp only [HexTable.init] at *
    simp [h2, HexTable.run, String.append_assoc]
  | cons b u =>
    rw [hexRun_init_column count cols digits (b :: u) hc (by simp)]
    set m := (b :: u).length with hm
    have hm1 : 1 ≤ m := by simp [hm]
    have hne : m ≠ 0 := by omega
    have hkey : m % cols = if (m - 1) % cols + 1 = cols then 0 else (m - 1) % cols + 1 := by
      have := mod_succ_char (m - 1) cols hc
      rwa [Nat.sub_add_cancel hm1] at this
    have hmod : (m - 1) % cols < cols := Nat.mod_lt _ hc
    have hcnt : 0 < (HexTable.init count cols digits).hexCounter + m := by
      simp [HexTable.init]; omega
    have hlim : (HexTable.init count cols digits).hexCounter + m + 1 ≥ count ↔ m + 1 ≥ count := by
      simp [HexTable.init]
    have hpos : 0 < m := by omega
    by_cases hwrap : (m - 1) % cols + 1 ≥ cols
    · have heq : (m - 1) % cols + 1 = cols := by omega
      have hz : m % cols = 0 := by rw [hkey, if_pos heq]
      have hnl : ¬ ((m - 1) % cols + 1 < cols) := by omega
      simp [hz, hne, hnl, hwrap, hcnt, hpos, HexTable.init, String.append_assoc]
    · have hnz : m % cols ≠ 0 := by
        rw [hkey, if_neg (by omega)]; omega
      have hlt : (m - 1) % cols + 1 < cols := by omega
      simp [hnz, hne, hlt, hwrap, hcnt, hpos, HexTable.init, String.append_assoc]

/-! ## Claim C2: comma and space placement in `HexTable.write` -/

/-- C2 counterexample.  In a 2-column table the second element is the
last one on its line (`(2-1) % 2 = 2-1`), so the claim predicts the
comma before it is NOT followed by a space; but the code emits
`", 0x00"` — the comma IS followed by a space.  (The space is in fact
omitted exactly when the element about to be written wraps to a new
line, i.e. is the FIRST of its line, not the last.) -/
theorem claim_C2_counterexample :
    (((HexTable.init 3 2 2).write 0).1.write 0).2 = ", 0x00" ∧ (2 - 1) % 2 = 2 - 1 :=
  ⟨by decide, by decide⟩

/-- C2 (amended): after `k` prior writes, `HexTable.write` emits no
comma when `k = 0` and a comma otherwise; the comma is followed by a
space unless the element about to be written is the first one on a new
line (which happens exactly when `k % cols = 0`, the same condition as
the wrap/indent); then come the zero-padded hex literal and, on the
last element, the closing brace. -/
theorem claim_C2 (count cols digits n : ℕ) (vs : List ℕ) (hc : 0 < cols) :
    (((HexTable.init count cols digits).run vs).1.write n).2 =
      (if vs.length = 0 then "" else ",") ++
      (if vs.length = 0 ∨ vs.length % cols = 0 then "" else " ") ++
      (if vs.length % cols = 0 then "\n  " else "") ++
      hexStr digits n ++
      (if vs.length + 1 ≥ count then " \x7d;\n\n" else "") :=
  hexWrite_nth count cols digits n vs hc

/-- C2 witness: the second element of a 12-column table gets a comma
and a space. -/
theorem claim_C2_witness :
    (((HexTable.init 5 12 2).run [7]).1.write 9).2 = ", 0x09" := by
  have h := claim_C2 5 12 2 9 [7] (by decide)
  rw [h]
  decide

/-! ## Bitmap packing lemmas (claim C1) -/

theorem packBits_cons (p : ℕ) (ps : List ℕ) (bits sum : ℕ) :
    packBits (p :: ps) bits sum =
      if bits + 1 ≥ 8 then (sum * 2 + p) :: packBits ps 0 0
      else packBits ps (bits + 1) (sum * 2 + p) := rfl

theorem accByte_cons (p : ℕ) (c : List ℕ) (sum : ℕ) :
    accByte sum (p :: c) = accByte (sum * 2 + p) c := rfl

theorem packBits_full (c rest : List ℕ) : ∀ (bits sum : ℕ),
    bits + c.length = 8 → bits < 8 →
    packBits (c ++ rest) bits sum = accByte sum c :: packBits rest 0 0 := by
  induction c with
  | nil => intro bits sum hlen hbits; simp at hlen; omega
  | cons p c ih =>
    intro bits sum hlen hbits
    cases c with
    | nil =>
      have h7 : bits = 7 := by simp at hlen; omega
      subst h7
      rw [List.cons_append, List.nil_append, packBits_cons,
        if_pos (by omega : 7 + 1 ≥ 8), accByte_cons]
      rfl
    | cons q c2 =>
      have hlt : ¬ (bits + 1 ≥ 8) := by simp at hlen; omega
      rw [List.cons_append, packBits_cons, if_neg hlt, accByte_cons,
        ih (bits + 1) (sum * 2 + p) (by simp at hlen ⊢; omega) (by omega)]

theorem packBits_tail (c : List ℕ) : ∀ (bits sum : ℕ), bits + c.length < 8 →
    packBits c bits sum = if bits + c.length > 0 then [accByte sum c] else [] := by
  induction c with
  | nil => intro bits sum _; simp [packBits, accByte]
  | cons p c ih =>
    intro bits sum hlen
    have hlt : ¬ (bits + 1 ≥ 8) := by simp at hlen; omega
    rw [packBits_cons, if_neg hlt, accByte_cons,
      ih (bits + 1) (sum * 2 + p) (by simp at hlen ⊢; omega)]
    have hpos : bits + 1 + c.length > 0 := by omega
    have hpos2 : bits + (p :: c).length > 0 := by simp
    rw [if_pos hpos, if_pos hpos2]

theorem packBits_length (bl : List ℕ) : ∀ bits sum, bits < 8 →
    (packBits bl bits sum).length = (bl.length + bits + 7) / 8 := by
  induction bl with
  | nil =>
    intro bits sum h8
    show (if bits > 0 then [sum] else []).length = _
    split_ifs with h
    · simp only [List.length_singleton, List.length_nil]
      omega
    · simp only [List.length_nil]
      omega
  | cons p bl ih =>
    intro bits sum h8
    by_cases hge : bits + 1 ≥ 8
    · rw [packBits_cons, if_pos hge, List.length_cons, ih 0 0 (by omega)]
      simp only [List.length_cons]
      omega
    · rw [packBits_cons, if_neg hge, ih (bits + 1) (sum * 2 + p) (by omega)]
      simp only [List.length_cons]
      omega

theorem packBits_split8 (bl : List ℕ) (hlen : 8 ≤ bl.length) :
    packBits bl 0 0 = accByte 0 (bl.take 8) :: packBits (bl.drop 8) 0 0 := by
  conv_lhs => rw [← List.take_append_drop 8 bl]
  exact packBits_full (bl.take 8) (bl.drop 8) 0 0
    (by rw [List.length_take]; omega) (by omega)

theorem packBits_getD_full : ∀ (j : ℕ) (bl : List ℕ), 8 * (j + 1) ≤ bl.length →
    (packBits bl 0 0).getD j 0 = accByte 0 ((bl.drop (8 * j)).take 8) := by
  intro j
  induction j with
  | zero =>
    intro bl hlen
    rw [packBits_split8 bl (by omega)]
    simp
  | succ j ih =>
    intro bl hlen
    rw [packBits_split8 bl (by omega), List.getD_cons_succ,
      ih (bl.drop 8) (by rw [List.length_drop]; omega)]
    congr 2
    rw [List.drop_drop]
    congr 1
    ring

theorem packBits_getD_last : ∀ (j : ℕ) (bl : List ℕ) (r : ℕ),
    bl.length = 8 * j + r → 0 < r → r < 8 →
    (packBits bl 0 0).getD j 0 = accByte 0 (bl.drop (8 * j)) := by
  intro j
  induction j with
  | zero =>
    intro bl r hlen h0 h8
    rw [packBits_tail bl 0 0 (by omega)]
    simp only [if_pos (by omega : 0 + bl.length > 0)]
    simp
  | succ j ih =>
    intro bl r hlen h0 h8
    rw [packBits_split8 bl (by omega), List.getD_cons_succ,
      ih (bl.drop 8) r (by rw [List.length_drop]; omega) h0 h8]
    congr 1
    rw [List.drop_drop]
    congr 1
    ring

theorem accByte_split : ∀ (c : List ℕ) (sum : ℕ),
    accByte sum c = sum * 2 ^ c.length + accByte 0 c := by
  intro c
  induction c with
  | nil => intro sum; simp [accByte]
  | cons p c ih =>
    intro sum
    show accByte (sum * 2 + p) c = sum * 2 ^ (p :: c).length + accByte (0 * 2 + p) c
    rw [ih (sum * 2 + p), ih (0 * 2 + p)]
    simp only [List.length_cons]
    ring

theorem accByte_lt : ∀ (c : List ℕ), (∀ b ∈ c, b < 2) →
    accByte 0 c < 2 ^ c.length := by
  intro c
  induction c with
  | nil => intro _; simp [accByte]
  | cons p c ih =>
    intro hb
    show accByte (0 * 2 + p) c < 2 ^ (p :: c).length
    rw [accByte_split c (0 * 2 + p)]
    have hp : p < 2 := hb p (by simp)
    have hc : accByte 0 c < 2 ^ c.length := ih (fun b hbm => hb b (by simp [hbm]))
    have h1 : (0 * 2 + p) * 2 ^ c.length ≤ 1 * 2 ^ c.length :=
      Nat.mul_le_mul_right _ (by omega)
    simp only [List.length_cons, pow_succ]
    omega

theorem accByte_bit : ∀ (c : List ℕ), (∀ b ∈ c, b < 2) → ∀ i, i < c.length →
    accByte 0 c / 2 ^ (c.length - 1 - i) % 2 = c.getD i 0 := by
  intro c
  induction c with
  | nil => intro _ i hi; simp at hi
  | cons p c ih =>
    intro hb i hi
    have hp : p < 2 := hb p (by simp)
    have hbc : ∀ b ∈ c, b < 2 := fun b hbm => hb b (by simp [hbm])
    have hA : accByte 0 c < 2 ^ c.length := accByte_lt c hbc
    have hacc : accByte 0 (p :: c) = accByte 0 c + p * 2 ^ c.length := by
      show accByte (0 * 2 + p) c = _
      rw [accByte_split c (0 * 2 + p)]
      ring
    cases i with
    | zero =>
      have hpos2 : (p :: c).length - 1 - 0 = c.length := by simp
      rw [hpos2, hacc, Nat.add_mul_div_right _ _ (Nat.pos_pow_of_pos _ (by omega)),
        Nat.div_eq_of_lt hA]
      simp [Nat.mod_eq_of_lt hp]
    | succ i =>
      have hiL : i < c.length := by simp at hi; omega
      have hL1 : 1 ≤ c.length := by omega
      set pos := c.length - 1 - i with hpos
      have hposle : pos + 1 ≤ c.length := by omega
      have hposs : (p :: c).length - 1 - (i + 1) = pos := by simp [hpos]; omega
      rw [hposs, hacc]
      have hsplit2 : p * 2 ^ c.length = p * 2 ^ (c.length - pos) * 2 ^ pos := by
        rw [mul_assoc, ← pow_add]
        congr 2
        omega
      rw [hsplit2, Nat.add_mul_div_right _ _ (Nat.pos_pow_of_pos _ (by omega))]
      have hsplit3 : p * 2 ^ (c.length - pos) = p * 2 ^ (c.length - pos - 1) * 2 := by
        rw [mul_assoc, ← pow_succ]
        congr 2
        omega
      rw [hsplit3, Nat.add_mul_mod_self_right]
      rw [List.getD_cons_succ]
      exact ih hbc i hiL

theorem packRow_length (w : ℕ) (row : ℕ → ℕ) :
    (packRow w row).length = (w + 7) / 8 := by
  unfold packRow
  rw [packBits_length _ 0 0 (by omega)]
  simp

theorem bitsRow_getD (w : ℕ) (row : ℕ → ℕ) (x : ℕ) (hx : x < w) :
    ((List.range w).map (fun t => if row t > 0 then 1 else 0)).getD x 0 =
      if row x > 0 then 1 else 0 := by
  have hlen : x < ((List.range w).map (fun t => if row t > 0 then 1 else 0)).length := by
    simpa using hx
  rw [List.getD_eq_getElem _ _ hlen, List.getElem_map]
  congr 2
  exact congrArg row (List.getElem_range x (by simpa using hx))

theorem chunk_getD (bl : List ℕ) (a i : ℕ) (hi : i < 8) (hlt : a + i < bl.length) :
    ((bl.drop a).take 8).getD i 0 = bl.getD (a + i) 0 := by
  have h1 : i < ((bl.drop a).take 8).length := by
    simp only [List.length_take, List.length_drop]
    omega
  rw [List.getD_eq_getElem _ _ h1, List.getElem_take, List.getElem_drop,
    List.getD_eq_getElem _ _ hlt]

theorem drop_getD (bl : List ℕ) (a i : ℕ) (hlt : a + i < bl.length) :
    (bl.drop a).getD i 0 = bl.getD (a + i) 0 := by
  have h1 : i < (bl.drop a).length := by
    simp only [List.length_drop]
    omega
  rw [List.getD_eq_getElem _ _ h1, List.getElem_drop,
    List.getD_eq_getElem _ _ hlt]

/-- C1 counterexample.  A 1×1 image whose only pixel is set emits the
single byte `1`: under the claimed MSB-first re-unpacking the bit at
position `7 - (0 mod 8) = 7` of that byte is `0`, not the `1` the claim
requires — a partial final byte is flushed as-is, low-aligned, not
MSB-aligned. -/
theorem claim_C1_counterexample :
    convertImageBitmap 1 1 (fun _ _ => 255) = [1] ∧ (1 : ℕ) / 2 ^ (7 - 0 % 8) % 2 = 0 :=
  ⟨by decide, by decide⟩

/-- C1 (amended): the bitmap packer emits exactly `ceil(w/8) * h` bytes,
row `y` occupying bytes `y*ceil(w/8) ..`.  Within a row, a pixel `x`
lying in a FULL byte (`x/8 < w/8`) occupies bit `7 - x%8` of byte `x/8`
as the claim states; a pixel of the trailing PARTIAL byte (`x/8 = w/8`,
only possible when `w % 8 ≠ 0`) occupies bit `w%8 - 1 - x%8`, and the
unfilled HIGH bits of that byte are zero (the byte is `< 2^(w%8)`). -/
theorem claim_C1 (w h : ℕ) (px : ℕ → ℕ → ℕ) :
    (convertImageBitmap w h px).length = ((w + 7) / 8) * h ∧
    ∀ x y, x < w → y < h →
      ((x / 8 < w / 8 →
        (convertImageBitmap w h px).getD (y * ((w + 7) / 8) + x / 8) 0
          / 2 ^ (7 - x % 8) % 2 = (if px x y > 0 then 1 else 0)) ∧
      (x / 8 = w / 8 →
        (convertImageBitmap w h px).getD (y * ((w + 7) / 8) + x / 8) 0
          / 2 ^ (w % 8 - 1 - x % 8) % 2 = (if px x y > 0 then 1 else 0) ∧
        (convertImageBitmap w h px).getD (y * ((w + 7) / 8) + x / 8) 0 < 2 ^ (w % 8))) := by
  have hrows : ∀ k, k < h → (packRow w (fun t => px t k)).length = (w + 7) / 8 :=
    fun k _ => packRow_length w _
  constructor
  · unfold convertImageBitmap
    rw [flatten_blocks_length _ _ h hrows]
    ring
  · intro x y hx hy
    have hgetrow : ∀ j, j < (w + 7) / 8 →
        (convertImageBitmap w h px).getD (y * ((w + 7) / 8) + j) 0 =
          (packRow w (fun t => px t y)).getD j 0 := by
      intro j hj
      unfold convertImageBitmap
      exact flatten_blocks_getD _ _ h y j 0 hrows hy hj
    set bl := (List.range w).map (fun t => if px t y > 0 then 1 else 0) with hbl
    have hbll : bl.length = w := by simp [hbl]
    have hblm : ∀ b ∈ bl, b < 2 := by
      intro b hbmem
      rw [hbl] at hbmem
      simp only [List.mem_map] at hbmem
      obtain ⟨t, _, ht⟩ := hbmem
      split_ifs at ht <;> omega
    constructor
    · intro hfull
      have hj : x / 8 < (w + 7) / 8 := by omega
      rw [hgetrow (x / 8) hj]
      unfold packRow
      rw [← hbl]
      rw [packBits_getD_full (x / 8) bl (by rw [hbll]; omega)]
      have hchunklen : ((bl.drop (8 * (x / 8))).take 8).length = 8 := by
        simp only [List.length_take, List.length_drop, hbll]
        omega
      rw [show (7 : ℕ) - x % 8 = ((bl.drop (8 * (x / 8))).take 8).length - 1 - (x % 8) by
        rw [hchunklen]]
      rw [accByte_bit _
        (fun b hbm => hblm b (List.mem_of_mem_drop (List.mem_of_mem_take hbm)))
        (x % 8) (by rw [hchunklen]; omega)]
      rw [chunk_getD bl (8 * (x / 8)) (x % 8) (by omega) (by rw [hbll]; omega)]
      rw [show 8 * (x / 8) + x % 8 = x by omega]
      exact bitsRow_getD w _ x hx
    · intro hpart
      have hr : 0 < w % 8 := by omega
      have hj : x / 8 < (w + 7) / 8 := by omega
      rw [hgetrow (x / 8) hj]
      unfold packRow
      rw [← hbl, hpart]
      rw [packBits_getD_last (w / 8) bl (w % 8) (by rw [hbll]; omega) hr (by omega)]
      have hdropm : ∀ b ∈ bl.drop (8 * (w / 8)), b < 2 :=
        fun b hbm => hblm b (List.mem_of_mem_drop hbm)
      have hdroplen : (bl.drop (8 * (w / 8))).length = w % 8 := by
        simp only [List.length_drop, hbll]
        omega
      constructor
      · rw [show w % 8 - 1 - x % 8 = (bl.drop (8 * (w / 8))).length - 1 - (x % 8) by
          rw [hdroplen]]
        rw [accByte_bit _ hdropm (x % 8) (by rw [hdroplen]; omega)]
        rw [drop_getD bl (8 * (w / 8)) (x % 8) (by rw [hbll]; omega)]
        rw [show 8 * (w / 8) + x % 8 = x by omega]
        exact bitsRow_getD w _ x hx
      · have hlt := accByte_lt (bl.drop (8 * (w / 8))) hdropm
        rwa [hdroplen] at hlt

/-- C1 witness: in a 9×2 checkerboard, pixel (8,1) lands in the partial
final byte of row 1 at bit `9%8 - 1 - 8%8 = 0`, and the byte's high
bits are clear. -/
theorem claim_C1_witness :
    (convertImageBitmap 9 2 pxBm).getD (1 * ((9 + 7) / 8) + 8 / 8) 0
        / 2 ^ (9 % 8 - 1 - 8 % 8) % 2 = (if pxBm 8 1 > 0 then 1 else 0) ∧
      (convertImageBitmap 9 2 pxBm).getD (1 * ((9 + 7) / 8) + 8 / 8) 0 < 2 ^ (9 % 8) :=
  ((claim_C1 9 2 pxBm).2 8 1 (by decide) (by decide)).2 (by decide)

/-! ## Claim C6: color quantizer output order and packing -/

theorem mapRange_getD (n : ℕ) (g : ℕ → ℕ) (i : ℕ) (hi : i < n) :
    ((List.range n).map g).getD i 0 = g i := by
  have hlen : i < ((List.range n).map g).length := by simpa using hi
  rw [List.getD_eq_getElem _ _ hlen, List.getElem_map]
  exact congrArg g (List.getElem_range i (by simpa using hi))

/-- C6: the color branch emits exactly `w * h` values, in column-major
order: the element at index `x*h + y` is pixel `(x, y)` packed as
`((R & 0xF8) << 8) | ((G & 0xFC) << 3) | (B >> 3)`. -/
theorem claim_C6 (w h : ℕ) (px : ℕ → ℕ → ℕ × ℕ × ℕ) :
    (convertImageRGB w h px).length = w * h ∧
    ∀ x y, x < w → y < h →
      (convertImageRGB w h px).getD (x * h + y) 0 =
        (((px x y).1 &&& 0xF8) <<< 8) ||| (((px x y).2.1 &&& 0xFC) <<< 3) |||
          ((px x y).2.2 >>> 3) := by
  have hcols : ∀ k, k < w → ((List.range h).map (fun y =>
      (((px k y).1 &&& 0xF8) <<< 8) ||| (((px k y).2.1 &&& 0xFC) <<< 3) |||
        ((px k y).2.2 >>> 3))).length = h := by
    intro k _
    simp
  constructor
  · unfold convertImageRGB
    exact flatten_blocks_length _ _ w hcols
  · intro x y hx hy
    unfold convertImageRGB
    rw [flatten_blocks_getD _ _ w x y 0 hcols hx hy]
    exact mapRange_getD h _ y hy

/-- C6 witness at pixel (1,2) of a 2×3 image. -/
theorem claim_C6_witness :
    (convertImageRGB 2 3 pxRGB).getD (1 * 3 + 2) 0 =
      (((pxRGB 1 2).1 &&& 0xF8) <<< 8) ||| (((pxRGB 1 2).2.1 &&& 0xFC) <<< 3) |||
        ((pxRGB 1 2).2.2 >>> 3) :=
  (claim_C6 2 3 pxRGB).2 1 2 (by decide) (by decide)

/-! ## Audio loop characterization -/

theorem get?_of_lt (l : List ℕ) (i : ℕ) (h : i < l.length) :
    l.get? i = some (l.getD i 0) := by
  rw [List.getD_eq_getElem _ _ h]
  simp [List.get?_eq_getElem?, List.getElem?_eq_getElem h]

theorem mapRange_peel {α : Type} (G : ℕ → α) (n : ℕ) :
    (List.range (n + 1)).map G = G 0 :: (List.range n).map (fun i => G (i + 1)) := by
  rw [List.range_succ_eq_map, List.map_cons, List.map_map]
  rfl

theorem stride_8 (ch : ℕ) : stride 8 ch = ch := rfl

theorem stride_16 (ch : ℕ) : stride 16 ch = 2 * ch := rfl

theorem stride_other (bp ch : ℕ) (h8 : bp ≠ 8) (h16 : bp ≠ 16) : stride bp ch = 0 := by
  unfold stride
  rw [if_neg h8, if_neg h16]

theorem mixChannels_succ (bs : List ℕ) (bp c idx sum : ℕ) :
    mixChannels bs bp (c + 1) idx sum =
      (if bp = 8 then
        match bs.get? idx with
        | some b => mixChannels bs bp c (idx + 1) (sum + b)
        | none => none
      else if bp = 16 then
        match bs.get? idx, bs.get? (idx + 1) with
        | some lo, some hi =>
          let x := lo + (hi <<< 8)
          let x2 := if x &&& 0x8000 ≠ 0 then x - 32768 else x + 32768
          mixChannels bs bp c (idx + 2) (sum + x2)
        | _, _ => none
      else mixChannels bs bp c idx sum) := rfl

theorem mixChannels_8 (bs : List ℕ) : ∀ (c idx s : ℕ), idx + c ≤ bs.length →
    mixChannels bs 8 c idx s =
      some (s + ((List.range c).map (fun j => bs.getD (idx + j) 0)).sum, idx + c) := by
  intro c
  induction c with
  | zero => intro idx s _; simp [mixChannels]
  | succ c ih =>
    intro idx s hlen
    rw [mixChannels_succ, if_pos rfl, get?_of_lt bs idx (by omega)]
    show mixChannels bs 8 c (idx + 1) (s + bs.getD idx 0) = _
    rw [ih (idx + 1) (s + bs.getD idx 0) (by omega)]
    have hpeel := mapRange_peel (fun j => bs.getD (idx + j) 0) c
    simp only [] at hpeel
    rw [hpeel, List.sum_cons]
    have hfun : ((List.range c).map (fun i => bs.getD (idx + (i + 1)) 0)) =
        ((List.range c).map (fun j => bs.getD (idx + 1 + j) 0)) := by
      apply List.map_congr_left
      intro i _
      congr 1
      omega
    rw [hfun]
    simp only [Nat.add_zero, Prod.mk.injEq, Option.some.injEq]
    constructor
    · omega
    · omega

theorem mixChannels_16 (bs : List ℕ) : ∀ (c idx s : ℕ), idx + 2 * c ≤ bs.length →
    mixChannels bs 16 c idx s =
      some (s + ((List.range c).map (fun j => conv16 bs (idx + 2 * j))).sum, idx + 2 * c) := by
  intro c
  induction c with
  | zero => intro idx s _; simp [mixChannels]
  | succ c ih =>
    intro idx s hlen
    rw [mixChannels_succ, if_neg (by omega), if_pos rfl,
      get?_of_lt bs idx (by omega), get?_of_lt bs (idx + 1) (by omega)]
    show mixChannels bs 16 c (idx + 2) (s + conv16 bs idx) = _
    rw [ih (idx + 2) (s + conv16 bs idx) (by omega)]
    have hpeel := mapRange_peel (fun j => conv16 bs (idx + 2 * j)) c
    simp only [] at hpeel
    rw [hpeel, List.sum_cons]
    have hfun : ((List.range c).map (fun i => conv16 bs (idx + 2 * (i + 1)))) =
        ((List.range c).map (fun j => conv16 bs (idx + 2 + 2 * j))) := by
      apply List.map_congr_left
      intro i _
      congr 1
      ring
    rw [hfun]
    simp only [Nat.mul_zero, Nat.add_zero, Prod.mk.injEq, Option.some.injEq]
    constructor
    · omega
    · omega

theorem mixChannels_other (bs : List ℕ) (bp : ℕ) (h8 : bp ≠ 8) (h16 : bp ≠ 16) :
    ∀ (c idx s : ℕ), mixChannels bs bp c idx s = some (s, idx) := by
  intro c
  induction c with
  | zero => intro idx s; rfl
  | succ c ih =>
    intro idx s
    rw [mixChannels_succ, if_neg h8, if_neg h16]
    exact ih idx s

theorem mixChannels_frame (bs : List ℕ) (bp ch idx : ℕ)
    (hb : bp = 8 ∨ bp = 16 → idx + stride bp ch ≤ bs.length) :
    mixChannels bs bp ch idx 0 = some (frameSum bs bp ch idx, idx + stride bp ch) := by
  by_cases h8 : bp = 8
  · subst h8
    rw [mixChannels_8 bs ch idx 0 (by have := hb (Or.inl rfl); rwa [stride_8] at this),
      stride_8]
    unfold frameSum
    rw [if_pos rfl]
    simp
  · by_cases h16 : bp = 16
    · subst h16
      rw [mixChannels_16 bs ch idx 0 (by have := hb (Or.inr rfl); rwa [stride_16] at this),
        stride_16]
      unfold frameSum
      rw [if_neg (by omega), if_pos rfl]
      simp
    · rw [mixChannels_other bs bp h8 h16 ch idx 0, stride_other bp ch h8 h16]
      unfold frameSum
      rw [if_neg h8, if_neg h16]
      simp

theorem sampleLoop_zero (bs : List ℕ) (bp ch dv r idx : ℕ) (buf : List ℕ) (bufIdx : ℕ) :
    sampleLoop bs bp ch dv r 0 idx buf bufIdx =
      (if bp = 16 ∧ r = 10 ∧ bufIdx > 1 then buf else [], none) := rfl

theorem sampleLoop_succ (bs : List ℕ) (bp ch dv r n idx : ℕ) (buf : List ℕ) (bufIdx : ℕ) :
    sampleLoop bs bp ch dv r (n + 1) idx buf bufIdx =
      (match mixChannels bs bp ch idx 0 with
      | none => ([], some .indexError)
      | some (sum, idx2) =>
        if bp = 16 ∧ r = 10 then
          if dv = 0 then ([], some .zeroDivisionError)
          else
            let s := sum / dv
            let b0 := (buf.getD 0 0 <<< 2) ||| (s >>> 8)
            let buf2 := (buf.set 0 b0).set bufIdx (s &&& 255)
            if bufIdx + 1 ≥ 5 then
              let res := sampleLoop bs bp ch dv r n idx2 [0, 0, 0, 0, 0] 1
              (buf2 ++ res.1, res.2)
            else
              sampleLoop bs bp ch dv r n idx2 buf2 (bufIdx + 1)
        else
          if dv = 0 then ([], some .zeroDivisionError)
          else
            let res := sampleLoop bs bp ch dv r n idx2 buf bufIdx
            (sum / dv :: res.1, res.2)) := rfl

theorem sampleLoop_nonpack (bs : List ℕ) (bp ch dv r : ℕ)
    (hnp : ¬(bp = 16 ∧ r = 10)) (hdv : dv ≠ 0) :
    ∀ (n idx : ℕ) (buf : List ℕ) (bufIdx : ℕ),
      (bp = 8 ∨ bp = 16 → idx + n * stride bp ch ≤ bs.length) →
      sampleLoop bs bp ch dv r n idx buf bufIdx =
        ((List.range n).map (fun i => frameSum bs bp ch (idx + stride bp ch * i) / dv),
         none) := by
  intro n
  induction n with
  | zero =>
    intro idx buf bufIdx _
    rw [sampleLoop_zero, if_neg (by tauto)]
    simp
  | succ n ih =>
    intro idx buf bufIdx hlen
    rw [sampleLoop_succ, mixChannels_frame bs bp ch idx (fun hc => by
      have h1 := hlen hc
      have h2 : (n + 1) * stride bp ch = n * stride bp ch + stride bp ch := by ring
      omega)]
    show (if bp = 16 ∧ r = 10 then _ else _) = _
    rw [if_neg hnp, if_neg hdv]
    rw [ih (idx + stride bp ch) buf bufIdx (fun hc => by
      have h1 := hlen hc
      have h2 : (n + 1) * stride bp ch = n * stride bp ch + stride bp ch := by ring
      omega)]
    have hm := map_range_shift (fun t => frameSum bs bp ch t / dv) (stride bp ch) idx n
    simp only [] at hm
    rw [hm]

theorem bufOf_nil : bufOf [] = [0, 0, 0, 0, 0] := rfl

theorem bufOf_getD0 (pre : List ℕ) : (bufOf pre).getD 0 0 = buf0 pre := rfl

theorem bufOf_snoc (pre : List ℕ) (s : ℕ) (hlen : pre.length ≤ 3) :
    ((bufOf pre).set 0 ((buf0 pre <<< 2) ||| (s >>> 8))).set (pre.length + 1) (s &&& 255) =
      bufOf (pre ++ [s]) := by
  rcases pre with _ | ⟨a, _ | ⟨b, _ | ⟨c, _ | ⟨d, t⟩⟩⟩⟩
  · rfl
  · rfl
  · rfl
  · rfl
  · simp at hlen

theorem pack10c_four (s0 s1 s2 s3 : ℕ) (rest : List ℕ) :
    pack10c (s0 :: s1 :: s2 :: s3 :: rest) =
      buf0 [s0, s1, s2, s3] :: (s0 &&& 255) :: (s1 &&& 255) :: (s2 &&& 255) ::
        (s3 &&& 255) :: pack10c rest := rfl

theorem bufOf_four (s0 s1 s2 s3 : ℕ) :
    bufOf [s0, s1, s2, s3] =
      [buf0 [s0, s1, s2, s3], s0 &&& 255, s1 &&& 255, s2 &&& 255, s3 &&& 255] := rfl

theorem sampleLoop_pack (bs : List ℕ) (ch dv : ℕ) (hdv : dv ≠ 0) :
    ∀ (n idx : ℕ) (pre : List ℕ), pre.length ≤ 3 →
      idx + n * (2 * ch) ≤ bs.length →
      sampleLoop bs 16 ch dv 10 n idx (bufOf pre) (pre.length + 1) =
        (pack10c (pre ++ (List.range n).map
          (fun i => frameSum bs 16 ch (idx + 2 * ch * i) / dv)), none) := by
  intro n
  induction n with
  | zero =>
    intro idx pre hpre _
    rw [sampleLoop_zero]
    simp only [List.range_zero, List.map_nil, List.append_nil]
    rcases pre with _ | ⟨a, _ | ⟨b, _ | ⟨c, t⟩⟩⟩
    · rw [if_neg (by simp)]
      rfl
    · rw [if_pos (by simp)]
      rfl
    · rw [if_pos (by simp)]
      rfl
    · rcases t with _ | ⟨d, t⟩
      · rw [if_pos (by simp)]
        rfl
      · simp at hpre
  | succ n ih =>
    intro idx pre hpre hlen
    have hstep : (n + 1) * (2 * ch) = n * (2 * ch) + 2 * ch := by ring
    rw [sampleLoop_succ, mixChannels_frame bs 16 ch idx (fun _ => by
      rw [stride_16]; omega)]
    show (if (16 : ℕ) = 16 ∧ (10 : ℕ) = 10 then _ else _) = _
    rw [if_pos ⟨rfl, rfl⟩, if_neg hdv]
    have hpeel := map_range_shift
      (fun t => frameSum bs 16 ch t / dv) (2 * ch) idx n
    simp only [] at hpeel
    rw [stride_16, bufOf_getD0]
    set s := frameSum bs 16 ch idx / dv with hs
    by_cases h3 : pre.length = 3
    · rw [if_pos (by omega : pre.length + 1 + 1 ≥ 5)]
      have hrec := ih (idx + 2 * ch) [] (by simp) (by omega)
      rw [bufOf_nil] at hrec
      simp only [List.length_nil, Nat.zero_add, List.nil_append] at hrec
      rw [hrec, bufOf_snoc pre s hpre, hpeel]
      rcases pre with _ | ⟨a, _ | ⟨b, _ | ⟨c, _ | ⟨d, t⟩⟩⟩⟩
      · simp at h3
      · simp at h3
      · simp at h3
      · rw [show ([a, b, c] : List ℕ) ++ [s] = [a, b, c, s] from rfl, bufOf_four,
          show ([a, b, c] : List ℕ) ++ s :: (List.range n).map
            (fun i => frameSum bs 16 ch (idx + 2 * ch + 2 * ch * i) / dv) =
            a :: b :: c :: s :: (List.range n).map
              (fun i => frameSum bs 16 ch (idx + 2 * ch + 2 * ch * i) / dv) from rfl,
          pack10c_four]
        rfl
      · simp at hpre
    · rw [if_neg (by omega : ¬ (pre.length + 1 + 1 ≥ 5))]
      rw [bufOf_snoc pre s hpre]
      rw [show pre.length + 1 + 1 = (pre ++ [s]).length + 1 by simp]
      rw [ih (idx + 2 * ch) (pre ++ [s]) (by simp; omega) (by omega)]
      rw [hpeel]
      rw [show pre ++ s :: (List.range n).map
          (fun i => frameSum bs 16 ch (idx + 2 * ch + 2 * ch * i) / dv) =
        (pre ++ [s]) ++ (List.range n).map
          (fun i => frameSum bs 16 ch (idx + 2 * ch + 2 * ch * i) / dv) by
        rw [List.append_assoc]; rfl]

theorem pack10c_nil : pack10c [] = [] := rfl

theorem convertWav_magic_neg (r : ℕ) (bs : List ℕ) (hm : ¬ wavMagic bs) :
    convertWav r bs = ([], some .assertionError) := by
  unfold convertWav
  rw [if_neg hm]

theorem convertWav_zeroBytesPer (r : ℕ) (bs : List ℕ) (hm : wavMagic bs)
    (hbp : bytesPer bs = 0) :
    convertWav r bs = ([], some .zeroDivisionError) := by
  unfold convertWav
  rw [if_pos hm, if_pos hbp]

theorem convertWav_run (r : ℕ) (bs : List ℕ) (hm : wavMagic bs) (hbp : bytesPer bs ≠ 0) :
    convertWav r bs =
      (Out.header (rate bs) (samples bs) (bitsDecl r bs) ::
        (sampleLoop bs (bitsPer bs) (channels bs) (divisor r bs) r (samples bs)
          (chunksize bs + 28) [0, 0, 0, 0, 0] 1).1.map Out.val,
       (sampleLoop bs (bitsPer bs) (channels bs) (divisor r bs) r (samples bs)
          (chunksize bs + 28) [0, 0, 0, 0, 0] 1).2) := by
  unfold convertWav
  rw [if_pos hm, if_neg hbp]

theorem sampleLoop_no_assert (bs : List ℕ) (bp ch dv r : ℕ) :
    ∀ (n idx : ℕ) (buf : List ℕ) (bufIdx : ℕ),
      (sampleLoop bs bp ch dv r n idx buf bufIdx).2 ≠ some PyErr.assertionError := by
  intro n
  induction n with
  | zero =>
    intro idx buf bufIdx
    rw [sampleLoop_zero]
    simp
  | succ n ih =>
    intro idx buf bufIdx
    rw [sampleLoop_succ]
    cases hmix : mixChannels bs bp ch idx 0 with
    | none => simp
    | some v =>
      obtain ⟨sum, idx2⟩ := v
      by_cases hp : bp = 16 ∧ r = 10
      · by_cases hdv : dv = 0
        · simp [hp, hdv]
        · by_cases hb5 : bufIdx + 1 ≥ 5
          · simp only [if_pos hp, if_neg hdv, if_pos hb5]
            exact ih idx2 [0, 0, 0, 0, 0] 1
          · simp only [if_pos hp, if_neg hdv, if_neg hb5]
            exact ih idx2 _ _
      · by_cases hdv : dv = 0
        · simp [hp, hdv]
        · simp only [if_neg hp, if_neg hdv]
          exact ih idx2 buf bufIdx

theorem convertWav_ok (r : ℕ) (bs : List ℕ) (hm : wavMagic bs) (hbp : bytesPer bs ≠ 0)
    (hdv : divisor r bs ≠ 0 ∨ samples bs = 0)
    (hlen : bitsPer bs = 8 ∨ bitsPer bs = 16 →
      chunksize bs + 28 + samples bs * stride (bitsPer bs) (channels bs) ≤ bs.length) :
    convertWav r bs =
      (Out.header (rate bs) (samples bs) (bitsDecl r bs) :: (outVals r bs).map Out.val,
       none) := by
  rw [convertWav_run r bs hm hbp]
  by_cases hp : bitsPer bs = 16 ∧ r = 10
  · obtain ⟨h16, h10⟩ := hp
    subst h10
    unfold outVals
    rw [if_pos ⟨h16, rfl⟩]
    rcases hdv with hdv | hs0
    · have hbound : chunksize bs + 28 + samples bs * (2 * channels bs) ≤ bs.length := by
        have hb := hlen (Or.inr h16)
        rw [h16, stride_16] at hb
        exact hb
      have hloop := sampleLoop_pack bs (channels bs) (divisor 10 bs) hdv (samples bs)
        (chunksize bs + 28) [] (by simp) hbound
      rw [bufOf_nil] at hloop
      simp only [List.length_nil, Nat.zero_add, List.nil_append] at hloop
      rw [h16, hloop]
      have hfun : (List.range (samples bs)).map
          (fun i => frameSum bs 16 (channels bs) (chunksize bs + 28 + 2 * channels bs * i)
            / divisor 10 bs) =
          (List.range (samples bs)).map (sampleVal 10 bs) := by
        apply List.map_congr_left
        intro i _
        unfold sampleVal
        rw [h16, stride_16]
      rw [hfun]
    · rw [hs0, sampleLoop_zero, if_neg (by simp)]
      simp [pack10c_nil]
  · unfold outVals
    rw [if_neg hp]
    rcases hdv with hdv | hs0
    · have hloop := sampleLoop_nonpack bs (bitsPer bs) (channels bs) (divisor r bs) r hp hdv
        (samples bs) (chunksize bs + 28) [0, 0, 0, 0, 0] 1 (fun hc => hlen hc)
      rw [hloop]
      have hfun : (List.range (samples bs)).map
          (fun i => frameSum bs (bitsPer bs) (channels bs)
            (chunksize bs + 28 + stride (bitsPer bs) (channels bs) * i) / divisor r bs) =
          (List.range (samples bs)).map (sampleVal r bs) := by
        apply List.map_congr_left
        intro i _
        rfl
      rw [hfun]
    · rw [hs0, sampleLoop_zero, if_neg (by tauto)]
      simp

theorem wavVals_ok (r : ℕ) (bs : List ℕ) (hm : wavMagic bs) (hbp : bytesPer bs ≠ 0)
    (hdv : divisor r bs ≠ 0 ∨ samples bs = 0)
    (hlen : bitsPer bs = 8 ∨ bitsPer bs = 16 →
      chunksize bs + 28 + samples bs * stride (bitsPer bs) (channels bs) ≤ bs.length) :
    wavVals r bs = outVals r bs := by
  unfold wavVals
  rw [convertWav_ok r bs hm hbp hdv hlen]
  simp only [List.filterMap_cons]
  rw [List.filterMap_map]
  have hcomp : ((fun o => match o with
      | Out.val n => some n
      | Out.header _ _ _ => none) ∘ Out.val) = some := by
    funext n
    rfl
  rw [hcomp, List.filterMap_some]

/-! ## Claim C3: error behavior of `convertWav` -/

/-- C3 counterexample: a file with valid RIFF/WAVE magic whose
`bytesPer` header field is zero makes `samples = bytesTotal // bytesPer`
raise an uncaught ZeroDivisionError — an input that passes the magic
check but does not convert successfully, with an error kind other than
FormatError. -/
theorem claim_C3_counterexample :
    wavMagic wavZeroBytesPer ∧
    (convertWav 8 wavZeroBytesPer).2 = some PyErr.zeroDivisionError :=
  ⟨by decide, by decide⟩

/-- C3 (amended): `convertWav` fails with the (assertion-based)
FormatError iff the magic check fails, and in that case emits nothing;
any other failure is an uncaught runtime error (zero division or index
out of range).  An input passing the magic check converts successfully
provided the header is non-degenerate (`bytesPer ≠ 0`, a nonzero
divisor or no samples) and the declared sample data fits in the file. -/
theorem claim_C3 :
    (∀ (r : ℕ) (bs : List ℕ),
      ((convertWav r bs).2 = some PyErr.assertionError ↔ ¬ wavMagic bs) ∧
      (¬ wavMagic bs → (convertWav r bs).1 = [])) ∧
    (∀ (r : ℕ) (bs : List ℕ), wavMagic bs → bytesPer bs ≠ 0 →
      (divisor r bs ≠ 0 ∨ samples bs = 0) →
      (bitsPer bs = 8 ∨ bitsPer bs = 16 →
        chunksize bs + 28 + samples bs * stride (bitsPer bs) (channels bs) ≤ bs.length) →
      (convertWav r bs).2 = none) := by
  constructor
  · intro r bs
    constructor
    · constructor
      · intro h
        by_contra hm
        by_cases hbp : bytesPer bs = 0
        · rw [convertWav_zeroBytesPer r bs hm hbp] at h
          simp at h
        · rw [convertWav_run r bs hm hbp] at h
          exact sampleLoop_no_assert bs _ _ _ r _ _ _ _ h
      · intro hm
        rw [convertWav_magic_neg r bs hm]
    · intro hm
      rw [convertWav_magic_neg r bs hm]
  · intro r bs hm hbp hdv hlen
    rw [convertWav_ok r bs hm hbp hdv hlen]

/-- C3 witness: a well-formed 8-bit mono WAV converts with no error. -/
theorem claim_C3_witness : (convertWav 8 wavMono8).2 = none :=
  claim_C3.2 8 wavMono8 (by decide) (by decide) (by decide) (by decide)

/-! ## Claim C5: 16-bit source in 8-bit output mode -/

theorem and_32768_iff (x : ℕ) (hx : x < 65536) : (x &&& 0x8000 ≠ 0) ↔ 32768 ≤ x := by
  have h15 : (32768 : ℕ) = 2 ^ 15 := by norm_num
  constructor
  · intro hand
    by_contra hlt
    push_neg at hlt
    apply hand
    rw [show (0x8000 : ℕ) = 2 ^ 15 by norm_num, Nat.and_two_pow, Nat.testBit_to_div_mod]
    have hz : x / 2 ^ 15 = 0 := Nat.div_eq_of_lt (by omega)
    simp [hz]
    omega
  · intro hge
    rw [show (0x8000 : ℕ) = 2 ^ 15 by norm_num, Nat.and_two_pow, Nat.testBit_to_div_mod]
    have h1 : x / 32768 = 1 := by omega
    rw [h15] at h1
    simp [h1]
    omega

theorem getD_lt_256 (bs : List ℕ) (hb : ∀ b ∈ bs, b < 256) (i : ℕ) : bs.getD i 0 < 256 := by
  by_cases h : i < bs.length
  · rw [List.getD_eq_getElem _ _ h]
    exact hb _ (List.getElem_mem h)
  · rw [List.getD_eq_default _ _ (by omega)]
    omega

theorem conv16_eq_offset (bs : List ℕ) (hb : ∀ b ∈ bs, b < 256) (i : ℕ) :
    conv16 bs i = offsetConv (le16 bs i) := by
  have hlo := getD_lt_256 bs hb i
  have hhi := getD_lt_256 bs hb (i + 1)
  have hsh : (bs.getD (i + 1) 0) <<< 8 = 256 * bs.getD (i + 1) 0 := by
    rw [Nat.shiftLeft_eq]
    ring
  unfold conv16 offsetConv le16
  simp only [hsh]
  have hv16 : bs.getD i 0 + 256 * bs.getD (i + 1) 0 < 65536 := by omega
  by_cases hc : 32768 ≤ bs.getD i 0 + 256 * bs.getD (i + 1) 0
  · rw [if_pos ((and_32768_iff _ hv16).mpr hc), if_pos hc]
  · rw [if_neg (fun hand => hc ((and_32768_iff _ hv16).mp hand)), if_neg hc]

/-- C5: on a 16-bit source in 8-bit output mode, every output value is
the floor of (the sum over channels of the offset-converted raw
little-endian samples) divided by `channels * 256`; in particular a
stereo 16-bit silence file yields 128 for every output sample. -/
theorem claim_C5 :
    (∀ (bs : List ℕ), wavMagic bs → bitsPer bs = 16 → bytesPer bs ≠ 0 →
      channels bs ≠ 0 → (∀ b ∈ bs, b < 256) →
      chunksize bs + 28 + samples bs * (2 * channels bs) ≤ bs.length →
      convertWav 8 bs =
        (Out.header (rate bs) (samples bs) 8 ::
          (List.range (samples bs)).map (fun i => Out.val
            (((List.range (channels bs)).map (fun c =>
              offsetConv (le16 bs (chunksize bs + 28 + 2 * channels bs * i + 2 * c)))).sum
              / (channels bs * 256))), none)) ∧
    convertWav 8 wavStereoZero = (Out.header 8000 2 8 :: [Out.val 128, Out.val 128], none) := by
  constructor
  · intro bs hm h16 hbp hch hb hbound
    have hdvzero : divisor 8 bs = channels bs * 256 := by
      unfold divisor
      rw [if_pos h16, if_neg (by omega)]
    have hdv : divisor 8 bs ≠ 0 ∨ samples bs = 0 :=
      Or.inl (by rw [hdvzero]; exact Nat.mul_ne_zero hch (by omega))
    have hlen : bitsPer bs = 8 ∨ bitsPer bs = 16 →
        chunksize bs + 28 + samples bs * stride (bitsPer bs) (channels bs) ≤ bs.length := by
      intro _
      rw [h16, stride_16]
      exact hbound
    rw [convertWav_ok 8 bs hm hbp hdv hlen]
    have hbd : bitsDecl 8 bs = 8 := by
      unfold bitsDecl
      rw [if_neg (by omega)]
    rw [hbd]
    unfold outVals
    rw [if_neg (by omega), List.map_map]
    simp only [Prod.mk.injEq, List.cons.injEq]
    refine ⟨⟨trivial, ?_⟩, trivial⟩
    apply List.map_congr_left
    intro i _
    simp only [Function.comp_apply]
    congr 1
    unfold sampleVal
    rw [h16, stride_16, hdvzero]
    unfold frameSum
    rw [if_neg (by omega), if_pos rfl]
    congr 1
    congr 1
    apply List.map_congr_left
    intro c _
    exact conv16_eq_offset bs hb _
  · decide

/-- C5 witness: the stereo-silence example satisfies all the
hypotheses; instantiating the general statement there yields the header
and the two 128 samples. -/
theorem claim_C5_witness :
    convertWav 8 wavStereoZero =
      (Out.header (rate wavStereoZero) (samples wavStereoZero) 8 ::
        (List.range (samples wavStereoZero)).map (fun i => Out.val
          (((List.range (channels wavStereoZero)).map (fun c =>
            offsetConv (le16 wavStereoZero
              (chunksize wavStereoZero + 28 + 2 * channels wavStereoZero * i + 2 * c)))).sum
            / (channels wavStereoZero * 256))), none) :=
  claim_C5.1 wavStereoZero (by decide) (by decide) (by decide) (by decide) (by decide)
    (by decide)

/-! ## Claim C10: bits-per-sample neither 8 nor 16 -/

theorem slice_append (hdr d : List ℕ) (a b : ℕ) (ha : a ≤ hdr.length)
    (hb : b ≤ hdr.length) :
    slice (hdr ++ d) a b = slice hdr a b := by
  unfold slice
  rw [List.drop_append_of_le_length ha,
    List.take_append_of_le_length (by rw [List.length_drop]; omega)]

/-- C10 counterexample: valid magic, `bitsPer = 3`, but `bytesPer = 0`:
the run fails with ZeroDivisionError instead of emitting `samples`
zeros — the claim as stated does not hold for every such file. -/
theorem claim_C10_counterexample :
    wavMagic wavOddBitsZeroBytesPer ∧ bitsPer wavOddBitsZeroBytesPer = 3 ∧
    convertWav 8 wavOddBitsZeroBytesPer = ([], some PyErr.zeroDivisionError) :=
  ⟨by decide, by decide, by decide⟩

/-- C10 (amended): if the magic check passes, `bitsPer` is neither 8
nor 16, and additionally `bytesPer ≠ 0` and (`channels ≠ 0` or there
are no samples), then the run succeeds, declares 8 output bits, and
emits exactly `samples` values, all zero; moreover the output does not
depend on the bytes at or after the sample-data offset
`chunksize + 28`. -/
theorem claim_C10 :
    (∀ (r : ℕ) (bs : List ℕ), wavMagic bs → bitsPer bs ≠ 8 → bitsPer bs ≠ 16 →
      bytesPer bs ≠ 0 → (channels bs ≠ 0 ∨ samples bs = 0) →
      convertWav r bs =
        (Out.header (rate bs) (samples bs) 8 :: List.replicate (samples bs) (Out.val 0),
         none)) ∧
    (∀ (r : ℕ) (hdr d1 d2 : List ℕ), wavMagic hdr → hdr.length = chunksize hdr + 28 →
      36 ≤ hdr.length → bitsPer hdr ≠ 8 → bitsPer hdr ≠ 16 → bytesPer hdr ≠ 0 →
      (channels hdr ≠ 0 ∨ samples hdr = 0) →
      convertWav r (hdr ++ d1) = convertWav r (hdr ++ d2)) := by
  have ha : ∀ (r : ℕ) (bs : List ℕ), wavMagic bs → bitsPer bs ≠ 8 → bitsPer bs ≠ 16 →
      bytesPer bs ≠ 0 → (channels bs ≠ 0 ∨ samples bs = 0) →
      convertWav r bs =
        (Out.header (rate bs) (samples bs) 8 :: List.replicate (samples bs) (Out.val 0),
         none) := by
    intro r bs hm h8 h16 hbp hch
    have hdv : divisor r bs ≠ 0 ∨ samples bs = 0 := by
      unfold divisor
      rw [if_neg h16]
      exact hch
    have hlen : bitsPer bs = 8 ∨ bitsPer bs = 16 →
        chunksize bs + 28 + samples bs * stride (bitsPer bs) (channels bs) ≤ bs.length := by
      intro hc
      rcases hc with hc | hc
      · exact absurd hc h8
      · exact absurd hc h16
    rw [convertWav_ok r bs hm hbp hdv hlen]
    have hbd : bitsDecl r bs = 8 := by
      unfold bitsDecl
      rw [if_neg (fun hpp => h16 hpp.1)]
    rw [hbd]
    congr 1
    unfold outVals
    rw [if_neg (fun hpp => h16 hpp.1)]
    have hz : ∀ i, sampleVal r bs i = 0 := by
      intro i
      unfold sampleVal frameSum
      rw [if_neg h8, if_neg h16]
      exact Nat.zero_div _
    rw [List.map_map]
    have hconst : (Out.val ∘ sampleVal r bs) = (fun _ => Out.val 0) := by
      funext i
      simp [Function.comp_apply, hz i]
    rw [hconst, List.map_const']
    simp
  refine ⟨ha, ?_⟩
  intro r hdr d1 d2 hm hlen h36 h8 h16 hbp hch
  have hck : ∀ d : List ℕ, chunksize (hdr ++ d) = chunksize hdr := fun d => by
    unfold chunksize
    rw [slice_append hdr d 16 20 (by omega) (by omega)]
  have hchn : ∀ d : List ℕ, channels (hdr ++ d) = channels hdr := fun d => by
    unfold channels
    rw [slice_append hdr d 22 24 (by omega) (by omega)]
  have hrt : ∀ d : List ℕ, rate (hdr ++ d) = rate hdr := fun d => by
    unfold rate
    rw [slice_append hdr d 24 28 (by omega) (by omega)]
  have hbpd : ∀ d : List ℕ, bytesPer (hdr ++ d) = bytesPer hdr := fun d => by
    unfold bytesPer
    rw [slice_append hdr d 32 34 (by omega) (by omega)]
  have hbits : ∀ d : List ℕ, bitsPer (hdr ++ d) = bitsPer hdr := fun d => by
    unfold bitsPer
    rw [slice_append hdr d 34 36 (by omega) (by omega)]
  have hbt : ∀ d : List ℕ, bytesTotal (hdr ++ d) = bytesTotal hdr := fun d => by
    unfold bytesTotal
    rw [hck d, slice_append hdr d (chunksize hdr + 24) (chunksize hdr + 28)
      (by omega) (by omega)]
  have hsm : ∀ d : List ℕ, samples (hdr ++ d) = samples hdr := fun d => by
    unfold samples
    rw [hbt d, hbpd d]
  have hmg : ∀ d : List ℕ, wavMagic (hdr ++ d) := fun d => by
    unfold wavMagic at hm ⊢
    rw [slice_append hdr d 0 4 (by omega) (by omega),
      slice_append hdr d 8 16 (by omega) (by omega)]
    exact hm
  rw [ha r (hdr ++ d1) (hmg d1) (by rw [hbits d1]; exact h8) (by rw [hbits d1]; exact h16)
    (by rw [hbpd d1]; exact hbp) (by rw [hchn d1, hsm d1]; exact hch)]
  rw [ha r (hdr ++ d2) (hmg d2) (by rw [hbits d2]; exact h8) (by rw [hbits d2]; exact h16)
    (by rw [hbpd d2]; exact hbp) (by rw [hchn d2, hsm d2]; exact hch)]
  rw [hrt d1, hrt d2, hsm d1, hsm d2]

/-- C10 witness: a file with `bitsPer = 3`, one channel, three declared
samples and zero data bytes emits three zero values, never touching the
(empty) data region. -/
theorem claim_C10_witness :
    convertWav 8 wavOddBits =
      (Out.header 8000 3 8 :: List.replicate 3 (Out.val 0), none) := by
  have h := claim_C10.1 8 wavOddBits (by decide) (by decide) (by decide) (by decide)
    (by decide)
  rw [h]
  decide

/-! ## Claim C7: written element count and the closing brace -/

theorem bufOf_length (pre : List ℕ) : (bufOf pre).length = 5 := by
  simp [bufOf]

theorem pack10c_length_aux : ∀ (m : ℕ) (l : List ℕ), l.length ≤ m →
    (pack10c l).length = 5 * ((l.length + 3) / 4) := by
  intro m
  induction m with
  | zero =>
    intro l hl
    have hnil : l = [] := List.eq_nil_of_length_eq_zero (by omega)
    subst hnil
    simp [pack10c_nil]
  | succ m ih =>
    intro l hl
    rcases l with _ | ⟨a, _ | ⟨b, _ | ⟨c, _ | ⟨d, t⟩⟩⟩⟩
    · simp [pack10c_nil]
    · show (bufOf [a]).length = _
      rw [bufOf_length]
      simp
    · show (bufOf [a, b]).length = _
      rw [bufOf_length]
      simp
    · show (bufOf [a, b, c]).length = _
      rw [bufOf_length]
      simp
    · rw [pack10c_four]
      simp only [List.length_cons]
      rw [ih t (by simp at hl; omega)]
      omega

theorem pack10c_length (l : List ℕ) : (pack10c l).length = 5 * ((l.length + 3) / 4) :=
  pack10c_length_aux l.length l le_rfl

theorem outVals_length (r : ℕ) (bs : List ℕ) :
    (outVals r bs).length = declaredCount r bs := by
  unfold outVals declaredCount
  by_cases hp : bitsPer bs = 16 ∧ r = 10
  · rw [if_pos hp, if_pos hp, pack10c_length]
    simp
  · rw [if_neg hp, if_neg hp]
    simp

theorem mem_data_append (c : Char) (a b : String) :
    c ∈ (a ++ b).data ↔ c ∈ a.data ∨ c ∈ b.data := by
  rw [show (a ++ b).data = a.data ++ b.data from rfl, List.mem_append]

theorem hexDigitCh_ne_brace : ∀ d, d < 16 → hexDigitCh d ≠ Char.ofNat 125 := by decide

theorem toHex_chars (n : ℕ) : ∀ c ∈ toHex n, ∃ d, d < 16 ∧ c = hexDigitCh d := by
  induction n using Nat.strong_induction_on with
  | _ n ih =>
    intro c hc
    rw [toHex_step] at hc
    by_cases h16 : n < 16
    · rw [if_pos h16] at hc
      simp only [List.mem_singleton] at hc
      exact ⟨n, h16, hc⟩
    · rw [if_neg h16] at hc
      rcases List.mem_append.mp hc with hc2 | hc2
      · exact ih (n / 16) (Nat.div_lt_self (by omega) (by omega)) c hc2
      · simp only [List.mem_singleton] at hc2
        exact ⟨n % 16, Nat.mod_lt _ (by omega), hc2⟩

theorem hexStr_no_brace (digits n : ℕ) : Char.ofNat 125 ∉ (hexStr digits n).data := by
  intro hmem
  unfold hexStr at hmem
  rw [mem_data_append] at hmem
  rcases hmem with hm | hm
  · exact absurd hm (by decide)
  · rw [show (String.mk (List.replicate (digits - (toHex n).length) (Char.ofNat 48) ++
      toHex n)).data = List.replicate (digits - (toHex n).length) (Char.ofNat 48) ++
      toHex n from rfl] at hm
    rcases List.mem_append.mp hm with hm2 | hm2
    · have := List.eq_of_mem_replicate hm2
      exact absurd this (by decide)
    · obtain ⟨d, hd, hceq⟩ := toHex_chars n _ hm2
      exact hexDigitCh_ne_brace d hd hceq.symm

theorem hexWrite_no_brace (h : HexTable) (n : ℕ) (hterm : h.hexCounter + 1 < h.hexLimit) :
    Char.ofNat 125 ∉ ((h.write n).2).data := by
  rw [hexWrite_emit, if_neg (by omega : ¬ h.hexCounter + 1 ≥ h.hexLimit)]
  split_ifs <;> intro hmem <;>
    rcases (mem_data_append _ _ _).mp hmem with h1 | h1 <;>
    first
      | exact absurd h1 (by decide)
      | (rcases (mem_data_append _ _ _).mp h1 with h2 | h2;
         · rcases (mem_data_append _ _ _).mp h2 with h3 | h3
           · exact absurd h3 (by decide)
           · exact absurd h3 (by decide)
         · exact hexStr_no_brace _ _ h2)

theorem hexRun_no_brace : ∀ (vs : List ℕ) (h : HexTable),
    h.hexCounter + vs.length < h.hexLimit →
    Char.ofNat 125 ∉ ((h.run vs).2).data := by
  intro vs
  induction vs with
  | nil =>
    intro h _
    show Char.ofNat 125 ∉ ("" : String).data
    decide
  | cons a t ih =>
    intro h hcnt
    intro hmem
    have hsplit : (h.run (a :: t)).2 = (h.write a).2 ++ (((h.write a).1).run t).2 := rfl
    rw [hsplit, mem_data_append] at hmem
    simp only [List.length_cons] at hcnt
    rcases hmem with hm | hm
    · exact hexWrite_no_brace h a (by omega) hm
    · have hst := hexWrite_state h a
      have hcnt2 : ((h.write a).1).hexCounter + t.length < ((h.write a).1).hexLimit := by
        rw [hst]
        simp only
        omega
      exact ih ((h.write a).1) hcnt2 hm

/-- C7 counterexample: a WAV passing the magic check whose data
sub-chunk is truncated writes only 2 of the 4 declared values to the
formatter before crashing, so the closing brace is never reached. -/
theorem claim_C7_counterexample :
    wavMagic wavTruncated ∧ declaredCount 8 wavTruncated = 4 ∧
    (wavVals 8 wavTruncated).length = 2 :=
  ⟨by decide, by decide, by decide⟩

/-- C7 (amended): for every WAV that passes the magic check AND
converts without a runtime error (nonzero `bytesPer`, nonzero divisor
or no samples, enough data), the number of values written to the
formatter equals the declared element count (`samples` in 8-bit mode,
`5*ceil(samples/4)` in 10-bit mode); and a `HexTable` fed exactly its
declared count emits no `}` before the last write, whose output ends
with the closing ` };`. -/
theorem claim_C7 :
    (∀ (r : ℕ) (bs : List ℕ), wavMagic bs → bytesPer bs ≠ 0 →
      (divisor r bs ≠ 0 ∨ samples bs = 0) →
      (bitsPer bs = 8 ∨ bitsPer bs = 16 →
        chunksize bs + 28 + samples bs * stride (bitsPer bs) (channels bs) ≤ bs.length) →
      (wavVals r bs).length = declaredCount r bs) ∧
    (∀ (count cols digits : ℕ) (vs : List ℕ), vs.length = count → 0 < cols → 0 < count →
      (∀ k, k < count →
        Char.ofNat 125 ∉ (((HexTable.init count cols digits).run (vs.take k)).2).data) ∧
      (∃ s, ((HexTable.init count cols digits).run vs).2 = s ++ " \x7d;\n\n" ∧
        Char.ofNat 125 ∉ s.data)) := by
  constructor
  · intro r bs hm hbp hdv hlen
    rw [wavVals_ok r bs hm hbp hdv hlen]
    exact outVals_length r bs
  · intro count cols digits vs hvs hcols hcount
    constructor
    · intro k hk
      apply hexRun_no_brace
      show (HexTable.init count cols digits).hexCounter + (vs.take k).length <
        (HexTable.init count cols digits).hexLimit
      rw [List.length_take]
      show 0 + min k vs.length < count
      omega
    · obtain ⟨a, ha⟩ : ∃ a, vs.drop (count - 1) = [a] := by
        have hdl : (vs.drop (count - 1)).length = 1 := by
          rw [List.length_drop]
          omega
        cases hd : vs.drop (count - 1) with
        | nil => rw [hd] at hdl; simp at hdl
        | cons x t =>
          cases t with
          | nil => exact ⟨x, rfl⟩
          | cons y u => rw [hd] at hdl; simp at hdl
      have hsplitvs : vs = vs.take (count - 1) ++ [a] := by
        rw [← ha, List.take_append_drop]
      rw [hsplitvs, hexRun_append]
      have hsingle : ∀ (h : HexTable) (x : ℕ), (h.run [x]).2 = (h.write x).2 ++ "" :=
        fun h x => rfl
      rw [hsingle]
      have htl : (vs.take (count - 1)).length = count - 1 := by
        rw [List.length_take]
        omega
      have hwn := hexWrite_nth count cols digits a (vs.take (count - 1)) hcols
      rw [htl] at hwn
      rw [if_pos (by omega : count - 1 + 1 ≥ count)] at hwn
      rw [hwn, String.append_empty]
      refine ⟨((HexTable.init count cols digits).run (vs.take (count - 1))).2 ++
        ((if count - 1 = 0 then "" else ",") ++
         (if count - 1 = 0 ∨ (count - 1) % cols = 0 then "" else " ") ++
         (if (count - 1) % cols = 0 then "\n  " else "") ++
         hexStr digits a), ?_, ?_⟩
      · simp only [String.append_assoc]
      · intro hmem
        rw [mem_data_append] at hmem
        rcases hmem with hm | hm
        · refine hexRun_no_brace (vs.take (count - 1)) (HexTable.init count cols digits)
            ?_ hm
          show 0 + (vs.take (count - 1)).length < count
          rw [htl]
          omega
        · rcases (mem_data_append _ _ _).mp hm with h1 | h1
          · rcases (mem_data_append _ _ _).mp h1 with h2 | h2
            · rcases (mem_data_append _ _ _).mp h2 with h3 | h3
              · split_ifs at h3 <;> exact absurd h3 (by decide)
              · split_ifs at h3 <;> exact absurd h3 (by decide)
            · split_ifs at h2 <;> exact absurd h2 (by decide)
          · exact hexStr_no_brace _ _ h1

/-- C7 witness: a mono 16-bit WAV with 6 samples in 10-bit mode writes
exactly `5 * ceil(6/4) = 10` values; and a 3-element table's first two
partial outputs hold no brace while the full output ends with ` };`. -/
theorem claim_C7_witness :
    (wavVals 10 wavMono16).length = declaredCount 10 wavMono16 ∧
    (∃ s, ((HexTable.init 3 12 2).run [1, 2, 3]).2 = s ++ " \x7d;\n\n" ∧
      Char.ofNat 125 ∉ s.data) :=
  ⟨claim_C7.1 10 wavMono16 (by decide) (by decide) (by decide) (by decide),
   (claim_C7.2 3 12 2 [1, 2, 3] (by decide) (by decide) (by decide)).2⟩

/-! ## Claim C4: 10-bit packing -/

theorem getD_cons5 (a b c d e : ℕ) (t : List ℕ) (k : ℕ) :
    (a :: b :: c :: d :: e :: t).getD (k + 5) 0 = t.getD k 0 := by
  have h1 : k + 5 = k + 4 + 1 := rfl
  have h2 : k + 4 = k + 3 + 1 := rfl
  have h3 : k + 3 = k + 2 + 1 := rfl
  have h4 : k + 2 = k + 1 + 1 := rfl
  rw [h1, List.getD_cons_succ, h2, List.getD_cons_succ, h3, List.getD_cons_succ,
    h4, List.getD_cons_succ, List.getD_cons_succ]

theorem getD_cons4 (a b c d : ℕ) (t : List ℕ) (k : ℕ) :
    (a :: b :: c :: d :: t).getD (k + 4) 0 = t.getD k 0 := by
  have h2 : k + 4 = k + 3 + 1 := rfl
  have h3 : k + 3 = k + 2 + 1 := rfl
  have h4 : k + 2 = k + 1 + 1 := rfl
  rw [h2, List.getD_cons_succ, h3, List.getD_cons_succ, h4, List.getD_cons_succ,
    List.getD_cons_succ]

theorem byte0_shift_eq : ∀ t0 < 4, ∀ t1 < 4, ∀ t2 < 4, ∀ t3 < 4,
    (((((((0 : ℕ) <<< 2) ||| t0) <<< 2) ||| t1) <<< 2 ||| t2) <<< 2) ||| t3 =
      ((t0 <<< 6) ||| (t1 <<< 4) ||| (t2 <<< 2)) ||| t3 := by decide

theorem shiftRight8_lt (s : ℕ) (hs : s ≤ 1023) : s >>> 8 < 4 := by
  rw [Nat.shiftRight_eq_div_pow]
  have h8 : (2 : ℕ) ^ 8 = 256 := by norm_num
  rw [h8]
  omega

theorem buf0_eq_claim (s0 s1 s2 s3 : ℕ) (h0 : s0 ≤ 1023) (h1 : s1 ≤ 1023)
    (h2 : s2 ≤ 1023) (h3 : s3 ≤ 1023) :
    buf0 [s0, s1, s2, s3] =
      (((s0 >>> 8) <<< 6) ||| ((s1 >>> 8) <<< 4) ||| ((s2 >>> 8) <<< 2)) ||| (s3 >>> 8) := by
  have he : buf0 [s0, s1, s2, s3] =
      (((((((0 : ℕ) <<< 2) ||| (s0 >>> 8)) <<< 2) ||| (s1 >>> 8)) <<< 2 ||| (s2 >>> 8)) <<< 2)
        ||| (s3 >>> 8) := rfl
  rw [he]
  exact byte0_shift_eq _ (shiftRight8_lt s0 h0) _ (shiftRight8_lt s1 h1)
    _ (shiftRight8_lt s2 h2) _ (shiftRight8_lt s3 h3)

theorem pack10c_getD_group : ∀ (g : ℕ) (l : List ℕ), 4 * g + 4 ≤ l.length →
    ((pack10c l).getD (5 * g) 0 =
      buf0 [l.getD (4 * g) 0, l.getD (4 * g + 1) 0, l.getD (4 * g + 2) 0,
        l.getD (4 * g + 3) 0] ∧
    ∀ j, j < 4 → (pack10c l).getD (5 * g + 1 + j) 0 = l.getD (4 * g + j) 0 &&& 255) := by
  intro g
  induction g with
  | zero =>
    intro l hlen
    rcases l with _ | ⟨s0, _ | ⟨s1, _ | ⟨s2, _ | ⟨s3, t⟩⟩⟩⟩ <;> simp at hlen
    rw [pack10c_four]
    constructor
    · rfl
    · intro j hj
      interval_cases j <;> rfl
  | succ g ih =>
    intro l hlen
    rcases l with _ | ⟨s0, _ | ⟨s1, _ | ⟨s2, _ | ⟨s3, t⟩⟩⟩⟩ <;> simp at hlen
    have hlt : 4 * g + 4 ≤ t.length := by omega
    rw [pack10c_four]
    have h5 : 5 * (g + 1) = 5 * g + 5 := by ring
    have h4 : 4 * (g + 1) = 4 * g + 4 := by ring
    constructor
    · rw [h5, getD_cons5, h4, getD_cons4,
        show 4 * g + 4 + 1 = 4 * g + 1 + 4 by ring, getD_cons4,
        show 4 * g + 4 + 2 = 4 * g + 2 + 4 by ring, getD_cons4,
        show 4 * g + 4 + 3 = 4 * g + 3 + 4 by ring, getD_cons4]
      exact (ih t hlt).1
    · intro j hj
      rw [show 5 * (g + 1) + 1 + j = 5 * g + 1 + j + 5 by ring, getD_cons5,
        h4, show 4 * g + 4 + j = 4 * g + j + 4 by ring, getD_cons4]
      exact (ih t hlt).2 j hj

theorem pack10c_getD_partial : ∀ (g k : ℕ) (l : List ℕ), l.length = 4 * g + k →
    1 ≤ k → k ≤ 3 →
    ((∀ j, j < k → (pack10c l).getD (5 * g + 1 + j) 0 = l.getD (4 * g + j) 0 &&& 255) ∧
     (∀ j, k ≤ j → j < 4 → (pack10c l).getD (5 * g + 1 + j) 0 = 0)) := by
  intro g
  induction g with
  | zero =>
    intro k l hlen hk1 hk3
    rcases l with _ | ⟨s0, _ | ⟨s1, _ | ⟨s2, _ | ⟨s3, t⟩⟩⟩⟩ <;> simp at hlen
    · omega
    · constructor
      · intro j hj
        have : j = 0 := by omega
        subst this
        rfl
      · intro j hjk hj4
        have hk : k = 1 := by omega
        subst hk
        interval_cases j <;> rfl
    · constructor
      · intro j hj
        have hk : k = 2 := by omega
        subst hk
        interval_cases j <;> rfl
      · intro j hjk hj4
        have hk : k = 2 := by omega
        subst hk
        interval_cases j <;> rfl
    · constructor
      · intro j hj
        have hk : k = 3 := by omega
        subst hk
        interval_cases j <;> rfl
      · intro j hjk hj4
        have hk : k = 3 := by omega
        subst hk
        interval_cases j <;> rfl
    · omega
  | succ g ih =>
    intro k l hlen hk1 hk3
    rcases l with _ | ⟨s0, _ | ⟨s1, _ | ⟨s2, _ | ⟨s3, t⟩⟩⟩⟩ <;> simp at hlen <;>
      try omega
    have hlt : t.length = 4 * g + k := by omega
    rw [pack10c_four]
    have h4 : 4 * (g + 1) = 4 * g + 4 := by ring
    constructor
    · intro j hj
      rw [show 5 * (g + 1) + 1 + j = 5 * g + 1 + j + 5 by ring, getD_cons5,
        h4, show 4 * g + 4 + j = 4 * g + j + 4 by ring, getD_cons4]
      exact (ih k t hlt hk1 hk3).1 j hj
    · intro j hjk hj4
      rw [show 5 * (g + 1) + 1 + j = 5 * g + 1 + j + 5 by ring, getD_cons5]
      exact (ih k t hlt hk1 hk3).2 j hjk hj4

theorem sum_map_le (n bound : ℕ) (f : ℕ → ℕ) (hf : ∀ i, f i ≤ bound) :
    ((List.range n).map f).sum ≤ n * bound := by
  induction n with
  | zero => simp
  | succ n ih =>
    rw [List.range_succ, List.map_append, List.sum_append]
    simp only [List.map_cons, List.map_nil, List.sum_cons, List.sum_nil]
    have := hf n
    have hm : (n + 1) * bound = n * bound + bound := by ring
    omega

theorem conv16_le (bs : List ℕ) (hb : ∀ b ∈ bs, b < 256) (i : ℕ) :
    conv16 bs i ≤ 65535 := by
  have hlo := getD_lt_256 bs hb i
  have hhi := getD_lt_256 bs hb (i + 1)
  unfold conv16
  have hsh : (bs.getD (i + 1) 0) <<< 8 = 256 * bs.getD (i + 1) 0 := by
    rw [Nat.shiftLeft_eq]
    ring
  simp only [hsh]
  have hv16 : bs.getD i 0 + 256 * bs.getD (i + 1) 0 < 65536 := by omega
  by_cases hc : (bs.getD i 0 + 256 * bs.getD (i + 1) 0) &&& 0x8000 ≠ 0
  · rw [if_pos hc]
    omega
  · rw [if_neg hc]
    have hxlt : ¬ 32768 ≤ bs.getD i 0 + 256 * bs.getD (i + 1) 0 := fun hge =>
      hc ((and_32768_iff _ hv16).mpr hge)
    omega

theorem frameSum16_le (bs : List ℕ) (hb : ∀ b ∈ bs, b < 256) (ch idx : ℕ) :
    frameSum bs 16 ch idx ≤ 65535 * ch := by
  unfold frameSum
  rw [if_neg (by omega), if_pos rfl]
  have := sum_map_le ch 65535 (fun c => conv16 bs (idx + 2 * c))
    (fun c => conv16_le bs hb _)
  omega

theorem frameSum8_le (bs : List ℕ) (hb : ∀ b ∈ bs, b < 256) (ch idx : ℕ) :
    frameSum bs 8 ch idx ≤ 255 * ch := by
  unfold frameSum
  rw [if_pos rfl]
  have := sum_map_le ch 255 (fun c => bs.getD (idx + c) 0)
    (fun c => Nat.lt_succ_iff.mp (getD_lt_256 bs hb (idx + c)))
  omega

theorem sampleVal10_le (bs : List ℕ) (hb : ∀ b ∈ bs, b < 256) (h16 : bitsPer bs = 16)
    (i : ℕ) : sampleVal 10 bs i ≤ 1023 := by
  unfold sampleVal
  rw [h16]
  have hdv : divisor 10 bs = channels bs * 64 := by
    unfold divisor
    rw [if_pos h16, if_pos rfl]
  rw [hdv]
  by_cases hch : channels bs = 0
  · rw [hch]
    simp
  · have hfs := frameSum16_le bs hb (channels bs)
      (chunksize bs + 28 + stride 16 (channels bs) * i)
    calc frameSum bs 16 (channels bs)
          (chunksize bs + 28 + stride 16 (channels bs) * i) / (channels bs * 64)
        ≤ 65535 * channels bs / (channels bs * 64) := Nat.div_le_div_right hfs
      _ = channels bs * 65535 / (channels bs * 64) := by rw [Nat.mul_comm]
      _ = 65535 / 64 := Nat.mul_div_mul_left _ _ (by omega)
      _ = 1023 := by norm_num

/-- C4: on a 16-bit source in 10-bit mode, every channel-summed sample
divided by `channels*64` is at most 1023; the output is `5*ceil(n/4)`
bytes; each complete aligned group of 4 samples `s0..s3` yields byte 0
`= ((s0>>8)<<6)|((s1>>8)<<4)|((s2>>8)<<2)|(s3>>8)` followed by the four
low bytes in order; a trailing partial group of 1-3 samples still
occupies a full 5-byte group whose filled sample-byte slots hold the
low bytes and whose unused sample-byte slots are zero. -/
theorem claim_C4 (bs : List ℕ) (hm : wavMagic bs) (h16 : bitsPer bs = 16)
    (hbp : bytesPer bs ≠ 0) (hch : channels bs ≠ 0) (hb : ∀ b ∈ bs, b < 256)
    (hbound : chunksize bs + 28 + samples bs * (2 * channels bs) ≤ bs.length) :
    (∀ i, sampleVal 10 bs i ≤ 1023) ∧
    (wavVals 10 bs).length = 5 * ((samples bs + 3) / 4) ∧
    (∀ g, 4 * g + 4 ≤ samples bs →
      ((wavVals 10 bs).getD (5 * g) 0 =
        (((sampleVal 10 bs (4 * g) >>> 8) <<< 6) |||
         ((sampleVal 10 bs (4 * g + 1) >>> 8) <<< 4) |||
         ((sampleVal 10 bs (4 * g + 2) >>> 8) <<< 2)) |||
         (sampleVal 10 bs (4 * g + 3) >>> 8) ∧
       ∀ j, j < 4 →
         (wavVals 10 bs).getD (5 * g + 1 + j) 0 = sampleVal 10 bs (4 * g + j) &&& 255)) ∧
    (∀ g k, samples bs = 4 * g + k → 1 ≤ k → k ≤ 3 →
      ((∀ j, j < k →
         (wavVals 10 bs).getD (5 * g + 1 + j) 0 = sampleVal 10 bs (4 * g + j) &&& 255) ∧
       (∀ j, k ≤ j → j < 4 → (wavVals 10 bs).getD (5 * g + 1 + j) 0 = 0))) := by
  have hdvz : divisor 10 bs = channels bs * 64 := by
    unfold divisor
    rw [if_pos h16, if_pos rfl]
  have hdv : divisor 10 bs ≠ 0 ∨ samples bs = 0 :=
    Or.inl (by rw [hdvz]; exact Nat.mul_ne_zero hch (by omega))
  have hlen : bitsPer bs = 8 ∨ bitsPer bs = 16 →
      chunksize bs + 28 + samples bs * stride (bitsPer bs) (channels bs) ≤ bs.length := by
    intro _
    rw [h16, stride_16]
    exact hbound
  have hvals : wavVals 10 bs =
      pack10c ((List.range (samples bs)).map (sampleVal 10 bs)) := by
    rw [wavVals_ok 10 bs hm hbp hdv hlen]
    unfold outVals
    rw [if_pos ⟨h16, rfl⟩]
  have hslen : ((List.range (samples bs)).map (sampleVal 10 bs)).length = samples bs := by
    simp
  have hsget : ∀ i, i < samples bs →
      ((List.range (samples bs)).map (sampleVal 10 bs)).getD i 0 = sampleVal 10 bs i :=
    fun i hi => mapRange_getD (samples bs) (sampleVal 10 bs) i hi
  refine ⟨fun i => sampleVal10_le bs hb h16 i, ?_, ?_, ?_⟩
  · rw [hvals, pack10c_length, hslen]
  · intro g hg
    have hfacts := pack10c_getD_group g ((List.range (samples bs)).map (sampleVal 10 bs))
      (by rw [hslen]; exact hg)
    constructor
    · rw [hvals, hfacts.1, hsget (4 * g) (by omega), hsget (4 * g + 1) (by omega),
        hsget (4 * g + 2) (by omega), hsget (4 * g + 3) (by omega)]
      exact buf0_eq_claim _ _ _ _ (sampleVal10_le bs hb h16 _)
        (sampleVal10_le bs hb h16 _) (sampleVal10_le bs hb h16 _)
        (sampleVal10_le bs hb h16 _)
    · intro j hj
      rw [hvals, hfacts.2 j hj, hsget (4 * g + j) (by omega)]
  · intro g k hgk hk1 hk3
    have hfacts := pack10c_getD_partial g k
      ((List.range (samples bs)).map (sampleVal 10 bs)) (by rw [hslen]; exact hgk) hk1 hk3
    constructor
    · intro j hj
      rw [hvals, hfacts.1 j hj, hsget (4 * g + j) (by omega)]
    · intro j hjk hj4
      rw [hvals, hfacts.2 j hjk hj4]

/-- C4 witness: the mono 16-bit six-sample file in 10-bit mode: group 0
facts and the 2-sample trailing partial group's zero slots. -/
theorem claim_C4_witness :
    (wavVals 10 wavMono16).length = 5 * ((samples wavMono16 + 3) / 4) ∧
    (wavVals 10 wavMono16).getD (5 * 1 + 1 + 2) 0 = 0 := by
  have h := claim_C4 wavMono16 (by decide) (by decide) (by decide) (by decide)
    (by decide) (by decide)
  exact ⟨h.2.1, (h.2.2.2 1 2 (by decide) (by decide) (by decide)).2 2 (by decide)
    (by decide)⟩

/-! ## Claim C8: every value fits its declared cell width -/

theorem packBits_mem_lt : ∀ (bl : List ℕ) (bits sum : ℕ), (∀ p ∈ bl, p < 2) →
    sum < 2 ^ bits → bits < 8 → ∀ b ∈ packBits bl bits sum, b < 256 := by
  intro bl
  induction bl with
  | nil =>
    intro bits sum _ hsum hbits b hbm
    show b < 256
    have : b ∈ (if bits > 0 then [sum] else []) := hbm
    split_ifs at this with h
    · simp at this
      subst this
      have : (2 : ℕ) ^ bits ≤ 2 ^ 7 := Nat.pow_le_pow_right (by omega) (by omega)
      have h7 : (2 : ℕ) ^ 7 = 128 := by norm_num
      omega
    · simp at this
  | cons p bl ih =>
    intro bits sum hp hsum hbits b hbm
    rw [packBits_cons] at hbm
    have hplt : p < 2 := hp p (by simp)
    have hs2 : sum * 2 + p < 2 ^ (bits + 1) := by
      rw [pow_succ]
      omega
    have hptail : ∀ q ∈ bl, q < 2 := fun q hq => hp q (by simp [hq])
    by_cases hge : bits + 1 ≥ 8
    · rw [if_pos hge] at hbm
      rcases List.mem_cons.mp hbm with hb | hb
      · subst hb
        have hbe : bits + 1 = 8 := by omega
        rw [hbe] at hs2
        have h8 : (2 : ℕ) ^ 8 = 256 := by norm_num
        omega
      · exact ih 0 0 hptail (by simp) (by omega) b hb
    · rw [if_neg hge] at hbm
      exact ih (bits + 1) (sum * 2 + p) hptail hs2 (by omega) b hbm

theorem buf0_snoc_eq (pre : List ℕ) (s : ℕ) :
    buf0 (pre ++ [s]) = (buf0 pre <<< 2) ||| (s >>> 8) := by
  unfold buf0
  rw [List.foldl_append]
  rfl

theorem buf0_lt (pre : List ℕ) (hs : ∀ s ∈ pre, s ≤ 1023) :
    buf0 pre < 2 ^ (2 * pre.length) := by
  induction pre using List.reverseRecOn with
  | nil =>
    show buf0 [] < 2 ^ (2 * ([] : List ℕ).length)
    simp [buf0]
  | append_singleton t s ih =>
    have ht := ih (fun x hx => hs x (List.mem_append_left _ hx))
    have hss : s >>> 8 < 4 := shiftRight8_lt s (hs s (List.mem_append_right _ (by simp)))
    rw [buf0_snoc_eq]
    have hexp : 2 * (t ++ [s]).length = 2 * t.length + 2 := by
      simp
      ring
    rw [hexp]
    apply Nat.or_lt_two_pow
    · rw [Nat.shiftLeft_eq, pow_add]
      have h4 : (2 : ℕ) ^ 2 = 4 := by norm_num
      rw [h4]
      omega
    · have : (4 : ℕ) ≤ 2 ^ (2 * t.length + 2) := by
        have h4 : (4 : ℕ) = 2 ^ 2 := by norm_num
        rw [h4]
        exact Nat.pow_le_pow_right (by omega) (by omega)
      omega

theorem bufOf_mem_lt (pre : List ℕ) (hs : ∀ s ∈ pre, s ≤ 1023) (hlen : pre.length ≤ 4) :
    ∀ v ∈ bufOf pre, v < 256 := by
  intro v hv
  unfold bufOf at hv
  rcases List.mem_cons.mp hv with hv | hv
  · subst hv
    have := buf0_lt pre hs
    have hle : (2 : ℕ) ^ (2 * pre.length) ≤ 2 ^ 8 :=
      Nat.pow_le_pow_right (by omega) (by omega)
    have h8 : (2 : ℕ) ^ 8 = 256 := by norm_num
    omega
  · rcases List.mem_map.mp hv with ⟨j, _, hveq⟩
    rw [← hveq]
    split_ifs
    · have := Nat.and_le_right (n := pre.getD j 0) (m := 255)
      omega
    · omega

theorem pack10c_mem : ∀ (m : ℕ) (l : List ℕ), l.length ≤ m → (∀ s ∈ l, s ≤ 1023) →
    ∀ v ∈ pack10c l, v < 256 := by
  intro m
  induction m with
  | zero =>
    intro l hl _ v hv
    have hnil : l = [] := List.eq_nil_of_length_eq_zero (by omega)
    subst hnil
    rw [pack10c_nil] at hv
    simp at hv
  | succ m ih =>
    intro l hl hs v hv
    rcases l with _ | ⟨s0, _ | ⟨s1, _ | ⟨s2, _ | ⟨s3, t⟩⟩⟩⟩
    · rw [pack10c_nil] at hv
      simp at hv
    · exact bufOf_mem_lt [s0] hs (by simp) v hv
    · exact bufOf_mem_lt [s0, s1] hs (by simp) v hv
    · exact bufOf_mem_lt [s0, s1, s2] hs (by simp) v hv
    · rw [pack10c_four] at hv
      have hs4 : ∀ s ∈ [s0, s1, s2, s3], s ≤ 1023 := by
        intro s hsm
        apply hs
        simp at hsm
        rcases hsm with h | h | h | h <;> simp [h]
      rcases List.mem_cons.mp hv with hv | hv
      · subst hv
        have := buf0_lt [s0, s1, s2, s3] hs4
        have h8 : (2 : ℕ) ^ (2 * ([s0, s1, s2, s3] : List ℕ).length) = 256 := by norm_num
        omega
      · rcases List.mem_cons.mp hv with hv | hv
        · rw [hv]
          have := Nat.and_le_right (n := s0) (m := 255)
          omega
        · rcases List.mem_cons.mp hv with hv | hv
          · rw [hv]
            have := Nat.and_le_right (n := s1) (m := 255)
            omega
          · rcases List.mem_cons.mp hv with hv | hv
            · rw [hv]
              have := Nat.and_le_right (n := s2) (m := 255)
              omega
            · rcases List.mem_cons.mp hv with hv | hv
              · rw [hv]
                have := Nat.and_le_right (n := s3) (m := 255)
                omega
              · refine ih t (by simp at hl; omega) ?_ v hv
                intro s hsm
                exact hs s (by simp [hsm])

theorem sampleVal_lt_256 (r : ℕ) (bs : List ℕ) (hb : ∀ b ∈ bs, b < 256)
    (hnp : ¬(bitsPer bs = 16 ∧ r = 10)) (i : ℕ) : sampleVal r bs i < 256 := by
  unfold sampleVal
  by_cases hdv0 : divisor r bs = 0
  · rw [hdv0, Nat.div_zero]
    omega
  · by_cases h8 : bitsPer bs = 8
    · have hdveq : divisor r bs = channels bs := by
        unfold divisor
        rw [if_neg (by omega)]
      rw [h8, hdveq]
      rw [hdveq] at hdv0
      have hfs := frameSum8_le bs hb (channels bs)
        (chunksize bs + 28 + stride 8 (channels bs) * i)
      have hdiv : frameSum bs 8 (channels bs)
          (chunksize bs + 28 + stride 8 (channels bs) * i) / channels bs ≤
          255 * channels bs / channels bs := Nat.div_le_div_right hfs
      rw [Nat.mul_div_cancel 255 (by omega : 0 < channels bs)] at hdiv
      omega
    · by_cases h16 : bitsPer bs = 16
      · have hr : r ≠ 10 := fun hr10 => hnp ⟨h16, hr10⟩
        have hdveq : divisor r bs = channels bs * 256 := by
          unfold divisor
          rw [if_pos h16, if_neg hr]
        rw [h16, hdveq]
        rw [hdveq] at hdv0
        have hch : 0 < channels bs := by omega
        have hfs := frameSum16_le bs hb (channels bs)
          (chunksize bs + 28 + stride 16 (channels bs) * i)
        have hdiv : frameSum bs 16 (channels bs)
            (chunksize bs + 28 + stride 16 (channels bs) * i) / (channels bs * 256) ≤
            65535 * channels bs / (channels bs * 256) := Nat.div_le_div_right hfs
        have heq : 65535 * channels bs / (channels bs * 256) = 255 := by
          rw [Nat.mul_comm 65535 (channels bs), Nat.mul_div_mul_left _ _ hch]
        rw [heq] at hdiv
        omega
      · have hz : frameSum bs (bitsPer bs) (channels bs)
            (chunksize bs + 28 + stride (bitsPer bs) (channels bs) * i) = 0 := by
          unfold frameSum
          rw [if_neg h8, if_neg h16]
        rw [hz, Nat.zero_div]
        omega

theorem pack565_lt (R G B : ℕ) (hB : B < 256) :
    ((R &&& 0xF8) <<< 8) ||| ((G &&& 0xFC) <<< 3) ||| (B >>> 3) < 65536 := by
  have h16 : (65536 : ℕ) = 2 ^ 16 := by norm_num
  rw [h16]
  have h1 : (R &&& 0xF8) <<< 8 < 2 ^ 16 := by
    rw [Nat.shiftLeft_eq]
    have ha := Nat.and_le_right (n := R) (m := 0xF8)
    have h8 : (2 : ℕ) ^ 8 = 256 := by norm_num
    rw [h8]
    have h2 : (2 : ℕ) ^ 16 = 65536 := by norm_num
    rw [h2]
    omega
  have h2 : (G &&& 0xFC) <<< 3 < 2 ^ 16 := by
    rw [Nat.shiftLeft_eq]
    have ha := Nat.and_le_right (n := G) (m := 0xFC)
    have h8 : (2 : ℕ) ^ 3 = 8 := by norm_num
    rw [h8]
    have hh : (2 : ℕ) ^ 16 = 65536 := by norm_num
    rw [hh]
    omega
  have h3 : B >>> 3 < 2 ^ 16 := by
    rw [Nat.shiftRight_eq_div_pow]
    have h8 : (2 : ℕ) ^ 3 = 8 := by norm_num
    rw [h8]
    have hh : (2 : ℕ) ^ 16 = 65536 := by norm_num
    rw [hh]
    omega
  exact Nat.or_lt_two_pow (Nat.or_lt_two_pow h1 h2) h3

theorem toHex_length_le (n : ℕ) : ∀ (d : ℕ), 0 < d → n < 16 ^ d →
    (toHex n).length ≤ d := by
  induction n using Nat.strong_induction_on with
  | _ n ih =>
    intro d hd hn
    rw [toHex_step]
    by_cases h16 : n < 16
    · rw [if_pos h16]
      simp only [List.length_singleton]
      omega
    · rw [if_neg h16]
      rw [List.length_append, List.length_singleton]
      have hd2 : 2 ≤ d := by
        by_contra hc
        have : d = 1 := by omega
        subst this
        simp at hn
        omega
      have hdiv : n / 16 < 16 ^ (d - 1) := by
        rw [Nat.div_lt_iff_lt_mul (by omega)]
        have : (16 : ℕ) ^ (d - 1) * 16 = 16 ^ d := by
          rw [← pow_succ]
          congr 1
          omega
        omega
      have := ih (n / 16) (Nat.div_lt_self (by omega) (by omega)) (d - 1) (by omega) hdiv
      omega

theorem hexStr_length (d n : ℕ) (hd : 0 < d) (hn : n < 16 ^ d) :
    (hexStr d n).length = d + 2 := by
  unfold hexStr
  rw [String.length_append]
  have hmk : (String.mk (List.replicate (d - (toHex n).length) (Char.ofNat 48) ++
      toHex n)).length =
      (List.replicate (d - (toHex n).length) (Char.ofNat 48) ++ toHex n).length := rfl
  rw [hmk, List.length_append, List.length_replicate]
  have hle := toHex_length_le n d hd hn
  have h0x : ("0x" : String).length = 2 := rfl
  rw [h0x]
  omega

/-- C8: every value the converters pass to the formatter fits its
declared cell width — bitmap bytes and audio values are below 256
(2 hex digits), color values below 65536 (4 hex digits) — and a value
below `16^digits` renders with exactly `digits` hex digits after the
`0x` prefix. -/
theorem claim_C8 :
    (∀ (w h : ℕ) (px : ℕ → ℕ → ℕ), ∀ b ∈ convertImageBitmap w h px, b < 256) ∧
    (∀ (w h : ℕ) (px : ℕ → ℕ → ℕ × ℕ × ℕ), (∀ x y, (px x y).2.2 < 256) →
      ∀ v ∈ convertImageRGB w h px, v < 65536) ∧
    (∀ (r : ℕ) (bs : List ℕ), wavMagic bs → bytesPer bs ≠ 0 →
      (divisor r bs ≠ 0 ∨ samples bs = 0) →
      (bitsPer bs = 8 ∨ bitsPer bs = 16 →
        chunksize bs + 28 + samples bs * stride (bitsPer bs) (channels bs) ≤ bs.length) →
      (∀ b ∈ bs, b < 256) →
      ∀ v ∈ wavVals r bs, v < 256) ∧
    (∀ (d n : ℕ), 0 < d → n < 16 ^ d → (hexStr d n).length = d + 2) := by
  refine ⟨?_, ?_, ?_, fun d n => hexStr_length d n⟩
  · intro w h px b hbm
    unfold convertImageBitmap at hbm
    rcases List.mem_flatten.mp hbm with ⟨row, hrow, hbrow⟩
    rcases List.mem_map.mp hrow with ⟨y, _, hy⟩
    rw [← hy] at hbrow
    unfold packRow at hbrow
    refine packBits_mem_lt _ 0 0 ?_ (by simp) (by omega) b hbrow
    intro p hp
    rcases List.mem_map.mp hp with ⟨x, _, hx⟩
    rw [← hx]
    split_ifs <;> omega
  · intro w h px hpx v hv
    unfold convertImageRGB at hv
    rcases List.mem_flatten.mp hv with ⟨col, hcol, hvcol⟩
    rcases List.mem_map.mp hcol with ⟨x, _, hx⟩
    rw [← hx] at hvcol
    rcases List.mem_map.mp hvcol with ⟨y, _, hy⟩
    rw [← hy]
    exact pack565_lt _ _ _ (hpx x y)
  · intro r bs hm hbp hdv hlen hb v hv
    rw [wavVals_ok r bs hm hbp hdv hlen] at hv
    unfold outVals at hv
    by_cases hp : bitsPer bs = 16 ∧ r = 10
    · obtain ⟨h16, hr10⟩ := hp
      subst hr10
      rw [if_pos ⟨h16, rfl⟩] at hv
      refine pack10c_mem ((List.range (samples bs)).map (sampleVal 10 bs)).length _
        le_rfl ?_ v hv
      intro s hsm
      rcases List.mem_map.mp hsm with ⟨i, _, hi⟩
      rw [← hi]
      exact sampleVal10_le bs hb h16 i
    · rw [if_neg hp] at hv
      rcases List.mem_map.mp hv with ⟨i, _, hi⟩
      rw [← hi]
      exact sampleVal_lt_256 r bs hb hp i

/-- C8 witness: the three output values of the 8-bit mono example
are all below 256, and a value filling 2 hex digits renders with
exactly 2 of them. -/
theorem claim_C8_witness :
    (255 : ℕ) < 256 ∧ (hexStr 2 255).length = 2 + 2 :=
  ⟨claim_C8.2.2.1 8 wavMono8 (by decide) (by decide) (by decide) (by decide) (by decide)
    255 (by decide),
   claim_C8.2.2.2 2 255 (by decide) (by decide)⟩

/-! ## Claim C9: gamma table entries -/

theorem gammaEntry_zero (d : ℕ) : gammaEntry d 0 = 0 := by
  unfold gammaEntry
  have h0 : ((0 : ℕ) : ℝ) / (d : ℝ) = 0 := by simp
  rw [h0, Real.zero_rpow (by norm_num : (2.7 : ℝ) ≠ 0)]
  norm_num

theorem gammaEntry_self (d : ℕ) (hd : 0 < d) : gammaEntry d d = 255 := by
  unfold gammaEntry
  have h1 : ((d : ℕ) : ℝ) / (d : ℝ) = 1 :=
    div_self (Nat.cast_ne_zero.mpr (by omega))
  rw [h1, Real.one_rpow]
  norm_num

theorem gammaEntry_mono (d : ℕ) (i j : ℕ) (hij : i ≤ j) :
    gammaEntry d i ≤ gammaEntry d j := by
  unfold gammaEntry
  apply Int.floor_le_floor
  have h1 : (i : ℝ) / (d : ℝ) ≤ (j : ℝ) / (d : ℝ) := by
    rcases Nat.eq_zero_or_pos d with hd | hd
    · subst hd
      norm_num
    · have hdp : (0 : ℝ) < (d : ℝ) := by positivity
      exact (div_le_div_iff_of_pos_right hdp).mpr (by exact_mod_cast hij)
  have h2 : ((i : ℝ) / (d : ℝ)) ^ (2.7 : ℝ) ≤ ((j : ℝ) / (d : ℝ)) ^ (2.7 : ℝ) :=
    Real.rpow_le_rpow (by positivity) h1 (by norm_num)
  nlinarith

/-- C9: entry `i` of the `N`-entry gamma table equals
`floor(255 * (i/(N-1))^2.7 + 0.5)` for both tables (`N = 32`, last
index 31, and `N = 64`, last index 63); entry 0 of the 32-entry table
is 0, entry 31 is 255, and both tables are monotone non-decreasing.
(Python's float arithmetic is modelled by real numbers.) -/
theorem claim_C9 :
    (∀ i : ℕ, gammaEntry 31 i = ⌊(255 : ℝ) * ((i : ℝ) / 31) ^ (2.7 : ℝ) + 0.5⌋) ∧
    (∀ i : ℕ, gammaEntry 63 i = ⌊(255 : ℝ) * ((i : ℝ) / 63) ^ (2.7 : ℝ) + 0.5⌋) ∧
    gammaEntry 31 0 = 0 ∧ gammaEntry 31 31 = 255 ∧
    (∀ i j : ℕ, i ≤ j → gammaEntry 31 i ≤ gammaEntry 31 j) ∧
    (∀ i j : ℕ, i ≤ j → gammaEntry 63 i ≤ gammaEntry 63 j) := by
  refine ⟨?_, ?_, gammaEntry_zero 31, gammaEntry_self 31 (by omega),
    gammaEntry_mono 31, gammaEntry_mono 63⟩
  · intro i
    unfold gammaEntry
    congr 1
    push_cast
    ring
  · intro i
    unfold gammaEntry
    congr 1
    push_cast
    ring

/-- C9 witness: the monotonicity conjuncts applied at 3 ≤ 5. -/
theorem claim_C9_witness :
    gammaEntry 31 3 ≤ gammaEntry 31 5 ∧ gammaEntry 63 3 ≤ gammaEntry 63 5 :=
  ⟨claim_C9.2.2.2.2.1 3 5 (by omega), claim_C9.2.2.2.2.2 3 5 (by omega)⟩

end Media2Array
